import Mathlib

/-!
# hopeio/iterext: lazy sequences over Go's `iter.Seq`

A shallow embedding of `src/std.go`, `src/util.go` and `src/stream.go`.

## How the Go code is read

* A Go `iter.Seq[T]` is `func(yield func(T) bool)`.  Both the sequence and the
  callback are closures that may mutate variables, so both are modelled by
  explicit state passing:
  * `L` is the state of the caller's loop body (the local variables the body
    of a `for v := range seq` statement assigns to);
  * `W` is the state that the caller-supplied functions (predicates, mappers,
    consumers, key functions, operators) may read and write;
  * `Cell` is the state captured by the sequence closure itself, which
    survives from one drive of the sequence value to the next (`Limit` and
    `Skip` decrement their own parameter inside the returned closure).
* `for v := range seq { body }` calls `seq` with a callback that runs `body`
  and answers `true`, unless the body executes `return`, in which case it
  answers `false`.
* Go's `int` is taken to be 64 bits wide; `x++` and `x--` wrap around
  (`wrapInt`).
* `var zero T` is `default` of an `Inhabited T`.
* A Go `string` is a list of bytes; a slice expression whose bound is out of
  range panics, which is the answer `none`.
* A loop that need not terminate (`RangeAll`) runs on fuel, and the theorems
  about it say how much fuel gives the result.
-/

namespace Iterext

/-! ## Machine integers -/

/-- Two's complement wrap-around of a mathematical integer into Go's 64-bit
`int`, the range `-2^63 .. 2^63 - 1`. -/
def wrapInt (x : Int) : Int := (x + 2 ^ 63) % 2 ^ 64 - 2 ^ 63

/-- Go's `math.MinInt` on a 64-bit platform. -/
def minInt : Int := -(2 ^ 63)

/-- Go's `math.MaxInt` on a 64-bit platform. -/
def maxInt : Int := 2 ^ 63 - 1

/-! ## Caller-supplied function types (`Predicate`, `UnaryFunction`, ...) -/

/-- Go `Predicate[T]`, `func(T) bool`: it may read and write the state `W`. -/
abbrev Predicate (W T : Type) := T → W → Bool × W

/-- Go `UnaryFunction[T, R]`, `func(T) R`. -/
abbrev UnaryFunction (W T R : Type) := T → W → R × W

/-- Go `Consumer[T]`, `func(T)`. -/
abbrev Consumer (W T : Type) := T → W → W

/-- Go `BinaryOperator[T]`, `func(T, T) T`. -/
abbrev BinaryOperator (W T : Type) := T → T → W → T × W

/-- Go `BinaryFunction[T, U, R]`, `func(T, U) R`. -/
abbrev BinaryFunction (W T U R : Type) := T → U → W → R × W

/-- Go `Comparator[T]`, `func(T, T) int`. -/
abbrev Comparator (W T : Type) := T → T → W → Int × W

/-- A caller-supplied one-argument function without side effects. -/
def pure1.{u} {W T : Type} {R : Type u} (f : T → R) : T → W → R × W := fun v w => (f v, w)

/-- A caller-supplied two-argument function without side effects. -/
def pure2 {W T U R : Type} (f : T → U → R) : T → U → W → R × W := fun a b w => (f a b, w)

/-! ## The sequence abstraction -/

/-- A Go `iter.Seq[T]` value: the closure `run` together with the variables
`cell` it has captured.  `run L yield c l w` drives the sequence once from
captured state `c`, loop-body state `l` and world `w`, and gives back the
three states after the drive.  `yield v l w` answers whether to continue. -/
structure Seq (W T : Type) where
  Cell : Type
  cell : Cell
  run : (L : Type) → (T → L → W → Bool × L × W) → Cell → L → W → Cell × L × W

/-- The statement `for v := range seq { body }`: drive `seq` once.  The result
holds the same sequence value as it is after the drive (its captured variables
may have changed), the loop-body state and the world. -/
def Seq.range {W T L : Type} (seq : Seq W T) (body : T → L → W → Bool × L × W)
    (l : L) (w : W) : Seq W T × L × W :=
  let r := seq.run L body seq.cell l w
  ({ seq with cell := r.1 }, r.2.1, r.2.2)

/-- The statement `for _, v := range input { body }` over a slice, where
`body` answers `false` when it executed `return`. -/
def rangeSlice {W T L : Type} (body : T → L → W → Bool × L × W) :
    List T → L → W → L × W
  | [], l, w => (l, w)
  | v :: rest, l, w =>
    let r := body v l w
    if r.1 then rangeSlice body rest r.2.1 r.2.2 else (r.2.1, r.2.2)

/-- Go `SliceAllValues` (std.go 23-31). -/
def SliceAllValues {W T : Type} (input : List T) : Seq W T where
  Cell := Unit
  cell := ()
  run := fun _ yield _ l w =>
    ((), rangeSlice (fun v l w =>
      let r := yield v l w
      if !r.1 then (false, r.2.1, r.2.2) else (true, r.2.1, r.2.2)) input l w)

/-- A sequence is a finite sequence with elements `xs` when driving it, from
the captured state it has now, presents exactly the elements of `xs` in order
to the callback and stops as soon as the callback answers `false`. -/
def Seq.Enumerates {W T : Type} (seq : Seq W T) (xs : List T) : Prop :=
  ∀ (L : Type) (yield : T → L → W → Bool × L × W) (l : L) (w : W),
    (seq.run L yield seq.cell l w).2 = rangeSlice yield xs l w

/-! ## Combinators (util.go) -/

/-- Go `Filter` (util.go 17-25). -/
def Filter {W T : Type} (seq : Seq W T) (test : Predicate W T) : Seq W T where
  Cell := seq.Cell
  cell := seq.cell
  run := fun _ yield c l w =>
    seq.run _ (fun v l w =>
      let t := test v w
      if t.1 then
        let r := yield v l t.2
        if !r.1 then (false, r.2.1, r.2.2) else (true, r.2.1, r.2.2)
      else (true, l, t.2)) c l w

/-- Go `Map` (util.go 29-37). -/
def Map {W T R : Type} (seq : Seq W T) (f : UnaryFunction W T R) : Seq W R where
  Cell := seq.Cell
  cell := seq.cell
  run := fun _ yield c l w =>
    seq.run _ (fun v l w =>
      let m := f v w
      let r := yield m.1 l m.2
      if !r.1 then (false, r.2.1, r.2.2) else (true, r.2.1, r.2.2)) c l w

/-- The body `if !yield(v) { return }` of a loop that is nested in another
loop (`FlatMap`, `Chain`): the first component of the loop state records that
`return` was executed, which leaves the enclosing loop as well. -/
def innerBody {W R L : Type} (yield : R → L → W → Bool × L × W) :
    R → Bool × L → W → Bool × (Bool × L) × W :=
  fun v s w =>
    let r := yield v s.2 w
    if !r.1 then (false, (true, r.2.1), r.2.2) else (true, (s.1, r.2.1), r.2.2)

/-- Go `FlatMap` (util.go 42-52).  `flatten` is a
`UnaryFunction[T, iter.Seq[R]]`.  The sequence value `flatten(v)` is a
temporary: its captured state is dropped after the inner loop. -/
def FlatMap {W T R : Type} (seq : Seq W T) (flatten : T → W → Seq W R × W) :
    Seq W R where
  Cell := seq.Cell
  cell := seq.cell
  run := fun L yield c l w =>
    let out := seq.run (Bool × L) (fun v s w =>
      let sub := flatten v w
      let inner := sub.1.run (Bool × L) (innerBody yield) sub.1.cell s sub.2
      if inner.2.1.1 then (false, inner.2.1, inner.2.2) else (true, inner.2.1, inner.2.2))
      c (false, l) w
    (out.1, out.2.1.2, out.2.2)

/-- Go `Peek` (util.go 56-65). -/
def Peek {W T : Type} (seq : Seq W T) (accept : Consumer W T) : Seq W T where
  Cell := seq.Cell
  cell := seq.cell
  run := fun _ yield c l w =>
    seq.run _ (fun v l w =>
      let w1 := accept v w
      let r := yield v l w1
      if !r.1 then (false, r.2.1, r.2.2) else (true, r.2.1, r.2.2)) c l w

/-- Go `Distinct` (util.go 69-83).  The map `set` is created inside the
returned closure, once per drive; it is modelled by the list of its keys
(`comparable` is `DecidableEq`). -/
def Distinct {W T C : Type} [DecidableEq C] (seq : Seq W T) (f : UnaryFunction W T C) :
    Seq W T where
  Cell := seq.Cell
  cell := seq.cell
  run := fun L yield c l w =>
    let out := seq.run (List C × L) (fun v s w =>
      let k := f v w
      let ok := decide (k.1 ∈ s.1)
      if !ok then
        let r := yield v s.2 k.2
        if !r.1 then (false, (s.1, r.2.1), r.2.2)
        else (true, (k.1 :: s.1, r.2.1), r.2.2)
      else (true, s, k.2)) c ([], l) w
    (out.1, out.2.1.2, out.2.2)

/-- Go's standard library `slices.SortFunc`, which is not part of this
repository, by its documented contract: the result is a permutation of the
input, and when `cmp(a, b) < 0` is a strict weak ordering no element is
followed by a smaller one. -/
structure SortFunc (T : Type) where
  sort : (T → T → Int) → List T → List T
  perm : ∀ cmp xs, (sort cmp xs).Perm xs
  sorted : ∀ cmp,
    (∀ a, ¬ cmp a a < 0) →
    (∀ a b c, cmp a b < 0 → cmp b c < 0 → cmp a c < 0) →
    (∀ a b c, ¬ cmp a b < 0 → ¬ cmp b a < 0 → ¬ cmp b c < 0 → ¬ cmp c b < 0 →
      ¬ cmp a c < 0 ∧ ¬ cmp c a < 0) →
    ∀ xs, (sort cmp xs).Chain' (fun a b => ¬ cmp b a < 0)

/-- Go `Sorted` (util.go 87-96).  `slices.SortedFunc(it, cmp)` collects `it`
and sorts the collected slice with `slices.SortFunc`; the comparator is handed
to the standard library and is a function of its arguments. -/
def Sorted {W T : Type} (sf : SortFunc T) (it : Seq W T) (cmp : T → T → Int) : Seq W T where
  Cell := it.Cell
  cell := it.cell
  run := fun _ yield c l w =>
    let collected := it.run (List T) (fun v s w => (true, s ++ [v], w)) c [] w
    let vals := sf.sort cmp collected.2.1
    let out := rangeSlice (fun v l w =>
      let r := yield v l w
      if !r.1 then (false, r.2.1, r.2.2) else (true, r.2.1, r.2.2)) vals l collected.2.2
    (collected.1, out.1, out.2)

/-- The variables of `IsSorted` that its loop body assigns to; `ret` is the
value the function returns. -/
structure IsSortedVars (T : Type) where
  last : T
  has : Bool
  ret : Bool

/-- Go `IsSorted` (util.go 100-122). -/
def IsSorted {W T : Type} [Inhabited T] (seq : Seq W T) (cmp : Comparator W T) (w : W) :
    Bool × W :=
  let out := seq.run (IsSortedVars T) (fun v s w =>
    if !s.has then (true, { s with last := v, has := true }, w)
    else
      let c := cmp s.last v w
      if c.1 ≥ 0 then (false, { s with ret := false }, c.2)
      else (true, { s with last := v }, c.2)) seq.cell ⟨default, false, true⟩ w
  (out.2.1.ret, out.2.2)

/-- Go `Limit` (util.go 126-138).  The loop body decrements the parameter
`limit`, a variable captured by the returned closure, so its value is part of
the sequence value and carries over to the next drive. -/
def Limit {W T : Type} (seq : Seq W T) (limit : Int) : Seq W T where
  Cell := seq.Cell × Int
  cell := (seq.cell, limit)
  run := fun L yield c l w =>
    let out := seq.run (Int × L) (fun v s w =>
      let limit := wrapInt (s.1 - 1)
      if limit < 0 then (false, (limit, s.2), w)
      else
        let r := yield v s.2 w
        if !r.1 then (false, (limit, r.2.1), r.2.2) else (true, (limit, r.2.1), r.2.2))
      c.1 (c.2, l) w
    ((out.1, out.2.1.1), out.2.1.2, out.2.2)

/-- Go `Skip` (util.go 142-153).  As in `Limit`, the decremented parameter
`skip` is captured by the returned closure. -/
def Skip {W T : Type} (seq : Seq W T) (skip : Int) : Seq W T where
  Cell := seq.Cell × Int
  cell := (seq.cell, skip)
  run := fun L yield c l w =>
    let out := seq.run (Int × L) (fun v s w =>
      let skip := wrapInt (s.1 - 1)
      if skip < 0 then
        let r := yield v s.2 w
        if !r.1 then (false, (skip, r.2.1), r.2.2) else (true, (skip, r.2.1), r.2.2)
      else (true, (skip, s.2), w))
      c.1 (c.2, l) w
    ((out.1, out.2.1.1), out.2.1.2, out.2.2)

/-- Go `Until` (util.go 168-179). -/
def Until {W T : Type} (seq : Seq W T) (isMatch : Predicate W T) : Seq W T where
  Cell := seq.Cell
  cell := seq.cell
  run := fun _ yield c l w =>
    seq.run _ (fun v l w =>
      let m := isMatch v w
      if m.1 then (false, l, m.2)
      else
        let r := yield v l m.2
        if !r.1 then (false, r.2.1, r.2.2) else (true, r.2.1, r.2.2)) c l w

/-- Modelled from the spec: the `Pair` helper type ("an immutable 2-tuple"),
whose declaration is not among the source files; the code reads its fields
`First` and `Second`. -/
structure Pair (A B : Type) where
  First : A
  Second : B
  deriving DecidableEq, Repr

/-- Modelled from the spec: `PairOf`, the constructor of the `Pair` helper. -/
def PairOf {A B : Type} (a : A) (b : B) : Pair A B := ⟨a, b⟩

/-- Go `Enumerate` (util.go 278-288).  `count` is declared inside the returned
closure, once per drive. -/
def Enumerate {W T : Type} (seq : Seq W T) : Seq W (Pair Int T) where
  Cell := seq.Cell
  cell := seq.cell
  run := fun L yield c l w =>
    let out := seq.run (Int × L) (fun v s w =>
      let r := yield (PairOf s.1 v) s.2 w
      if !r.1 then (false, (s.1, r.2.1), r.2.2)
      else (true, (wrapInt (s.1 + 1), r.2.1), r.2.2)) c (0, l) w
    (out.1, out.2.1.2, out.2.2)

/-- Go `Chain` (util.go 290-300): the outer loop over the slice `seqs` is the
recursion.  Every operand carries its own captured variables, so the embedding
is exact when no sequence value with captured state occurs twice among the
operands (in Go the two occurrences would share that state). -/
def Chain {W T : Type} : List (Seq W T) → Seq W T
  | [] => { Cell := Unit, cell := (), run := fun _ _ c l w => (c, l, w) }
  | seq :: seqs =>
    { Cell := seq.Cell × (Chain seqs).Cell
      cell := (seq.cell, (Chain seqs).cell)
      run := fun L yield c l w =>
        let inner := seq.run (Bool × L) (innerBody yield) c.1 (false, l) w
        if inner.2.1.1 then ((inner.1, c.2), inner.2.1.2, inner.2.2)
        else
          let rest := (Chain seqs).run L yield c.2 inner.2.1.2 inner.2.2
          ((inner.1, rest.1), rest.2.1, rest.2.2) }

/-! ## Terminal operations (util.go) -/

/-- Go `ToSlice` (util.go 395-401). -/
def ToSlice {W V : Type} (it : Seq W V) (w : W) : List V × W :=
  let r := it.run (List V) (fun p r w => (true, r ++ [p], w)) it.cell [] w
  (r.2.1, r.2.2)

/-- Go `Reduce` (util.go 232-247); the loop state is `(result, has)`. -/
def Reduce {W T : Type} [Inhabited T] (seq : Seq W T) (acc : BinaryOperator W T) (w : W) :
    (T × Bool) × W :=
  let out := seq.run (T × Bool) (fun v s w =>
    if !s.2 then (true, (v, true), w)
    else
      let a := acc s.1 v w
      (true, (a.1, s.2), a.2)) seq.cell (default, false) w
  if out.2.1.2 then ((out.2.1.1, out.2.1.2), out.2.2)
  else ((out.2.1.1, out.2.1.2), out.2.2)

/-- Go `Count` (util.go 271-276). -/
def Count {W T : Type} (seq : Seq W T) (w : W) : Int × W :=
  let out := seq.run Int (fun _ count w => (true, wrapInt (count + 1), w)) seq.cell 0 w
  (out.2.1, out.2.2)

/-! ## The fluent wrapper (stream.go) -/

/-- Go's standard library `slices.Collect`, which is not part of this
repository: `for v := range seq { s = append(s, v) }`. -/
def slicesCollect {W T : Type} (seq : Seq W T) (w : W) : List T × W :=
  let r := seq.run (List T) (fun v s w => (true, s ++ [v], w)) seq.cell [] w
  (r.2.1, r.2.2)

/-- Go `StreamOf` (stream.go 39-41): the conversion `Seq[T](seq)`. -/
def StreamOf {W T : Type} (seq : Seq W T) : Seq W T := seq

/-- Go method `Seq.Filter` (stream.go 79-81). -/
def Seq.Filter {W T : Type} (it : Seq W T) (test : Predicate W T) : Seq W T :=
  Iterext.Filter it test

/-- Go method `Seq.Map` (stream.go 83-85). -/
def Seq.Map {W T : Type} (it : Seq W T) (f : UnaryFunction W T T) : Seq W T :=
  Iterext.Map it f

/-- Go method `Seq.Collect` (stream.go 123-125). -/
def Seq.Collect {W T : Type} (it : Seq W T) (w : W) : List T × W :=
  slicesCollect it w

/-! ## More producers (std.go) -/

/-- The statement `for ; n > 0; n-- { body }`, for a body that does not assign
to `n`: the body runs `n` times, unless it executes `return`. -/
def loopDown {W L : Type} (body : L → W → Bool × L × W) : Nat → L → W → L × W
  | 0, l, w => (l, w)
  | n + 1, l, w =>
    let r := body l w
    if r.1 then loopDown body n r.2.1 r.2.2 else (r.2.1, r.2.2)

/-- Go `SliceBackwardValues` (std.go 33-42): `n := len(input) - 1` and
`for i := n; n > 0; n--`, so `i` keeps its first value.  Whenever the body
runs, `n > 0` and the index `i = len(input) - 1` is in range; `getD` never
falls back. -/
def SliceBackwardValues {W T : Type} [Inhabited T] (input : List T) : Seq W T where
  Cell := Unit
  cell := ()
  run := fun _ yield _ l w =>
    let n : Int := (input.length : Int) - 1
    let i : Int := n
    ((), loopDown (fun l w =>
      let r := yield (input.getD i.toNat default) l w
      if !r.1 then (false, r.2.1, r.2.2) else (true, r.2.1, r.2.2)) n.toNat l w)

/-- Go `SliceBackward` (std.go 44-53), with the same loop. -/
def SliceBackward {W T : Type} [Inhabited T] (input : List T) : Seq W (Pair Int T) where
  Cell := Unit
  cell := ()
  run := fun _ yield _ l w =>
    let n : Int := (input.length : Int) - 1
    let i : Int := n
    ((), loopDown (fun l w =>
      let r := yield (PairOf i (input.getD i.toNat default)) l w
      if !r.1 then (false, r.2.1, r.2.2) else (true, r.2.1, r.2.2)) n.toNat l w)

/-- The statement `for v := begin; v <= end; v += step { body }` on Go's `int`.
The loop need not terminate, so it runs on fuel: `none` means that the fuel
ran out before the loop ended. -/
def rangeLoop {W L : Type} (endv step : Int) (body : Int → L → W → Bool × L × W) :
    Nat → Int → L → W → Option (L × W)
  | 0, _, _, _ => none
  | fuel + 1, v, l, w =>
    if v ≤ endv then
      let r := body v l w
      if r.1 then rangeLoop endv step body fuel (wrapInt (v + step)) r.2.1 r.2.2
      else some (r.2.1, r.2.2)
    else some (l, w)

/-- Go `RangeAll` (std.go 117-125) at the element type `int`.  `fuel` bounds
the number of iterations of one drive; a drive that runs out of fuel is
abandoned and reports the states it was started with.  The theorems say how
much fuel a drive needs. -/
def RangeAll {W : Type} (fuel : Nat) (begin endv step : Int) : Seq W Int where
  Cell := Unit
  cell := ()
  run := fun _ yield _ l w =>
    match rangeLoop endv step (fun v l w =>
      let r := yield v l w
      if !r.1 then (false, r.2.1, r.2.2) else (true, r.2.1, r.2.2)) fuel begin l w with
    | some r => ((), r)
    | none => ((), l, w)

/-! ## More terminal operations (util.go, stream.go) -/

/-- Go `Operator` (util.go 302-314); the loop state is `(result, idx)`.  In
the branch `idx == 0` the body ends with `continue`, before `idx++`. -/
def Operator {W T : Type} [Inhabited T] (seq : Seq W T) (add : BinaryOperator W T) (w : W) :
    T × W :=
  let out := seq.run (T × Int) (fun v s w =>
    if s.2 == 0 then (true, (v, s.2), w)
    else
      let a := add s.1 v w
      (true, (a.1, wrapInt (s.2 + 1)), a.2)) seq.cell (default, 0) w
  (out.2.1.1, out.2.2)

/-- Go `OperatorBy` (util.go 342-347). -/
def OperatorBy {W T : Type} [Inhabited T] (it : Seq W T) (f : BinaryOperator W T) (w : W) :
    T × W :=
  let r := Reduce it (fun a b w => f a b w) w
  (r.1.1, r.2)

/-- Go method `Seq.Sum` (stream.go 151-153), the implementation of
`Stream.Sum`. -/
def Seq.Sum {W T : Type} [Inhabited T] (it : Seq W T) (add : BinaryOperator W T) (w : W) :
    T × W :=
  Operator it add w

/-- Go `At` (util.go 363-373); the loop state is `i` and the value of an
executed `return v, true`.  The loop body does not assign to `i`, and `ok` is
never assigned. -/
def At {W T : Type} [Inhabited T] (it : Seq W T) (index : Int) (w : W) : (T × Bool) × W :=
  let out := it.run (Int × Option T) (fun v s w =>
    if s.1 == index then (false, (s.1, some v), w) else (true, s, w)) it.cell (0, none) w
  match out.2.1.2 with
  | some v => ((v, true), out.2.2)
  | none => ((default, false), out.2.2)

/-- Go `Unzip` (util.go 376-384). -/
def Unzip {W A B : Type} (it : Seq W (Pair A B)) (w : W) : (List A × List B) × W :=
  let out := it.run (List A × List B) (fun p s w =>
    (true, (s.1 ++ [p.First], s.2 ++ [p.Second]), w)) it.cell ([], []) w
  (out.2.1, out.2.2)

/-- Go `JoinBy` (util.go 430-437).  A Go string is a sequence of bytes; the
byte type `B` is a parameter, `len` is the number of bytes and `s[:hi]` keeps
the first `hi` bytes.  The slice expression `b.String()[:b.Len()-len(sep)]`
panics when its bound is negative: the answer is then `none`. -/
def JoinBy {W T B : Type} (it : Seq W T) (toString : T → W → List B × W) (sep : List B)
    (w : W) : Option (List B) × W :=
  let out := it.run (List B) (fun v b w =>
    let s := toString v w
    (true, (b ++ s.1) ++ sep, s.2)) it.cell [] w
  let hi : Int := (out.2.1.length : Int) - (sep.length : Int)
  if hi < 0 then (none, out.2.2) else (some (out.2.1.take hi.toNat), out.2.2)

/-- Drive the same sequence value to completion twice, each time with the
loop of `ToSlice`: the elements of the first drive, the elements of the second
drive (on the sequence value as the first drive left it), and the world. -/
def driveTwice {W T : Type} (seq : Seq W T) (w : W) : List T × List T × W :=
  let first := seq.range (fun p (r : List T) w => (true, r ++ [p], w)) [] w
  let second := first.1.range (fun p (r : List T) w => (true, r ++ [p], w)) [] first.2.2
  (first.2.1, second.2.1, second.2.2)

/-- A restartable finite sequence with elements `xs`: whatever the state of
its captured variables, driving it presents exactly the elements of `xs` in
order to the callback and stops as soon as the callback answers `false`. -/
def Seq.Stable {W T : Type} (seq : Seq W T) (xs : List T) : Prop :=
  ∀ (c : seq.Cell) (L : Type) (yield : T → L → W → Bool × L × W) (l : L) (w : W),
    (seq.run L yield c l w).2 = rangeSlice yield xs l w

/-! ## Specification functions -/

/-- The elements of `xs` whose key does not occur as the key of an earlier
element of `xs`, in the order of `xs`: every element is paired with the list
of the elements before it (`xs.inits`), and it is kept when none of those has
its key. -/
def firstOfEachKey {T C : Type} [DecidableEq C] (f : T → C) (xs : List T) : List T :=
  ((xs.zip xs.inits).filter (fun p => decide (∀ y ∈ p.2, f y ≠ f p.1))).map Prod.fst

/-- The elements of `xs` that `Distinct` keeps when it has already seen the
keys `seen`. -/
def firstOcc {T C : Type} [DecidableEq C] (f : T → C) : List C → List T → List T
  | _, [] => []
  | seen, x :: rest =>
    if f x ∈ seen then firstOcc f seen rest else x :: firstOcc f (f x :: seen) rest

/-- A 3-way comparator is a consistent total preorder: exchanging the
arguments exchanges "less" and "greater" (so `cmp a a = 0` and any two elements
are comparable), and "less or equal" is transitive. -/
def ConsistentTotalPreorder {T : Type} (cmp : T → T → Int) : Prop :=
  (∀ a b, cmp a b < 0 ↔ 0 < cmp b a) ∧
  (∀ a b c, cmp a b ≤ 0 → cmp b c ≤ 0 → cmp a c ≤ 0)

/-- The ascending comparator on integers (Go's `cmp.Compare`). -/
def ascending (a b : Int) : Int := if a < b then -1 else if b < a then 1 else 0

/-- An insertion sort (the algorithm `slices.SortFunc` runs on slices shorter
than twelve elements), used where a worked example needs a concrete sort. -/
def insertionSortFunc (T : Type) : SortFunc T where
  sort := fun cmp xs => xs.insertionSort (fun a b => ¬ cmp b a < 0)
  perm := fun cmp xs => List.perm_insertionSort _ xs
  sorted := fun cmp hirr htrans hinc xs => by
    haveI : IsTotal T (fun a b => ¬ cmp b a < 0) :=
      ⟨fun a b => by
        by_cases h : cmp b a < 0
        · exact Or.inr fun h2 => hirr b (htrans b a b h h2)
        · exact Or.inl h⟩
    haveI : IsTrans T (fun a b => ¬ cmp b a < 0) :=
      ⟨fun a b c hab hbc hca => by
        by_cases h1 : cmp a b < 0
        · exact hbc (htrans c a b hca h1)
        · by_cases h2 : cmp b c < 0
          · exact hab (htrans b c a h2 hca)
          · exact (hinc a b c h1 hab h2 hbc).2 hca⟩
    exact (List.sorted_insertionSort (fun a b => ¬ cmp b a < 0) xs).chain'

/-! ## Instrumentation for the early-stop contract -/

/-- What an instrumented run records, in the order it happens: a
caller-supplied function was invoked on the source element `v`, or the
downstream callback was invoked with the element `r`. -/
inductive Event (T R : Type) where
  | called (v : T)
  | yielded (r : R)
  deriving DecidableEq, Repr

/-- Whether an event is an invocation of the downstream callback. -/
def Event.isYielded {T R : Type} : Event T R → Bool
  | .called _ => false
  | .yielded _ => true

/-- A caller-supplied function (predicate, mapper, key function) that computes
`f` and records each of its invocations. -/
def logged.{u} {T R : Type} {X : Type u} (f : T → X) :
    T → List (Event T R) → X × List (Event T R) :=
  fun v log => (f v, log ++ [Event.called v])

/-- A caller-supplied consumer that records each of its invocations. -/
def loggedConsumer {T R : Type} : Consumer (List (Event T R)) T :=
  fun v log => log ++ [Event.called v]

/-- A downstream callback that records each of its invocations and answers
`false` on its `k`-th invocation; its state is the number of invocations so
far. -/
def stopAt {T R : Type} (k : Nat) : R → Nat → List (Event T R) → Bool × Nat × List (Event T R) :=
  fun r n log => (decide (n + 1 < k), n + 1, log ++ [Event.yielded r])

/-- Drive a sequence once with the callback `stopAt k`, from an empty record:
the number of callback invocations and the record of the run. -/
def driveStopAt {T R : Type} (k : Nat) (seq : Seq (List (Event T R)) R) :
    Nat × List (Event T R) :=
  (seq.run Nat (stopAt k) seq.cell 0 []).2

/-- The early-stop contract on the outcome of `driveStopAt k`: `n` is the
number of callback invocations on record, the callback was invoked at most `k`
times, and if it was invoked `k` times (so that its last answer was `false`)
then that invocation is the last event on record: nothing at all was invoked
after it. -/
def EarlyStop {T R : Type} (k : Nat) (out : Nat × List (Event T R)) : Prop :=
  out.1 = (out.2.filter Event.isYielded).length ∧ out.1 ≤ k ∧
  (out.1 = k → ∃ pre r, out.2 = pre ++ [Event.yielded r])

/-- The state of an instrumented run in which the callback `stopAt k` has not
yet answered `false`: `n` invocations are on record, fewer than `k`. -/
def Running {T R : Type} (k : Nat) (n : Nat) (log : List (Event T R)) : Prop :=
  n = (log.filter Event.isYielded).length ∧ n < k

/-- The state of an instrumented run right after the callback `stopAt k`
answered `false`: its `k`-th invocation is the last event on record. -/
def Halted {T R : Type} (k : Nat) (n : Nat) (log : List (Event T R)) : Prop :=
  n = (log.filter Event.isYielded).length ∧ n = k ∧ ∃ pre r, log = pre ++ [Event.yielded r]

/-- The source elements on which a caller-supplied function was invoked, in
the order of the invocations. -/
def calledOn {T R : Type} : List (Event T R) → List T
  | [] => []
  | Event.called v :: rest => v :: calledOn rest
  | Event.yielded _ :: rest => calledOn rest

/-- The positional part of the early-stop contract.  `drive ys` is the outcome
of the instrumented run of a combinator over the slice source `ys`, and
`calls pre` lists the elements on which the combinator calls its function when
it pulls the elements `pre` (all of them, or none for a combinator that takes
no function).  If the callback was invoked `k` times on the source `xs`, then
there is a position `j` such that the run over the first `j` elements invokes
the callback fewer than `k` times, so that the element at position `j` is the
one that produced the `k`-th yielded element; the run over `xs` is the run over
the first `j + 1` elements; and the caller-supplied function was invoked
exactly on the elements up to position `j`, in order, so on no later one. -/
def StopsAtSource {T R : Type} (k : Nat) (calls : List T → List T)
    (drive : List T → Nat × List (Event T R)) (xs : List T) : Prop :=
  (drive xs).1 = k →
    ∃ j, j < xs.length ∧ (drive (xs.take j)).1 < k ∧
      drive (xs.take (j + 1)) = drive xs ∧
      calledOn (drive xs).2 = calls (xs.take (j + 1))

/-- What the early-stop lemmas ask of the downstream callback: from a good
state it either answers `true` and leaves a good state, or answers `false` and
leaves a stopped state. -/
def StopsCleanly {W R L : Type} (Good Stopped : L → W → Prop)
    (yield : R → L → W → Bool × L × W) : Prop :=
  ∀ r l w, Good l w →
    ((yield r l w).1 = true ∧ Good (yield r l w).2.1 (yield r l w).2.2) ∨
    ((yield r l w).1 = false ∧ Stopped (yield r l w).2.1 (yield r l w).2.2)

/-- The elements of `xs` paired with their positions `0, 1, 2, ...`. -/
def withPositions {T : Type} (xs : List T) : List (Pair Int T) :=
  xs.enum.map (fun p => PairOf (p.1 : Int) p.2)

/-- The strings `ss` with the separator `sep` between consecutive ones:
`s1 + sep + s2 + ... + sep + sn`, and the empty string for no strings. -/
def joinWith {B : Type} (sep : List B) : List (List B) → List B
  | [] => []
  | [a] => a
  | a :: b :: rest => a ++ sep ++ joinWith sep (b :: rest)

/-- What the loop of `JoinBy` writes to its builder: every string followed by
the separator. -/
def withTrailingSep {T B : Type} (ts : T → List B) (sep : List B) : List T → List B
  | [] => []
  | x :: rest => ts x ++ sep ++ withTrailingSep ts sep rest

/-! ## Lemmas -/

theorem guard_eq {L W : Type} (r : Bool × L × W) :
    (if !r.1 then (false, r.2.1, r.2.2) else (true, r.2.1, r.2.2)) = r := by
  obtain ⟨b, l, w⟩ := r
  cases b <;> rfl

@[simp] theorem guard_simp {L W : Type} (r : Bool × L × W) :
    (if r.1 = false then (false, r.2) else (true, r.2)) = r := by
  obtain ⟨b, l, w⟩ := r
  cases b <;> rfl

theorem rangeSlice_congr {W T L : Type} (body body2 : T → L → W → Bool × L × W)
    (h : ∀ v l w, body v l w = body2 v l w) (xs : List T) (l : L) (w : W) :
    rangeSlice body xs l w = rangeSlice body2 xs l w := by
  have e : body = body2 := funext fun v => funext fun l => funext fun w => h v l w
  rw [e]

theorem SliceAllValues_enumerates {W T : Type} (xs : List T) :
    (SliceAllValues xs : Seq W T).Enumerates xs := by
  intro L yield l w
  exact rangeSlice_congr _ _ (fun v l w => guard_eq (yield v l w)) xs l w

theorem rangeSlice_append_body {W T : Type} (xs : List T) (acc : List T) (w : W) :
    rangeSlice (fun p r w => (true, r ++ [p], w)) xs acc w = (acc ++ xs, w) := by
  induction xs generalizing acc with
  | nil => simp [rangeSlice]
  | cons v rest ih => simp [rangeSlice, ih]

theorem ToSlice_of_enumerates {W T : Type} (S : Seq W T) (xs : List T)
    (hS : S.Enumerates xs) (w : W) : ToSlice S w = (xs, w) := by
  simp only [ToSlice, hS (List T), rangeSlice_append_body, List.nil_append]

theorem rangeSlice_filter {W T L : Type} (P : T → Bool)
    (yield body : T → L → W → Bool × L × W)
    (hb : ∀ v l w, body v l w = if P v then yield v l w else (true, l, w))
    (xs : List T) (l : L) (w : W) :
    rangeSlice body xs l w = rangeSlice yield (xs.filter P) l w := by
  induction xs generalizing l w with
  | nil => rfl
  | cons v rest ih =>
    cases hP : P v <;> simp [rangeSlice, hb, hP, ih]

theorem Filter_enumerates {W T : Type} (S : Seq W T) (xs : List T) (hS : S.Enumerates xs)
    (P : T → Bool) : (Filter S (pure1 P)).Enumerates (xs.filter P) := by
  intro L yield l w
  simp only [Filter]
  rw [hS L]
  refine rangeSlice_filter P yield _ (fun v l w => ?_) xs l w
  cases hP : P v <;> simp [pure1, hP, guard_eq]

theorem slicesCollect_of_enumerates {W T : Type} (S : Seq W T) (xs : List T)
    (hS : S.Enumerates xs) (w : W) : slicesCollect S w = (xs, w) := by
  simp only [slicesCollect, hS (List T), rangeSlice_append_body, List.nil_append]

theorem rangeSlice_map {W T R L : Type} (f : T → R)
    (yield : R → L → W → Bool × L × W) (body : T → L → W → Bool × L × W)
    (hb : ∀ v l w, body v l w = yield (f v) l w)
    (xs : List T) (l : L) (w : W) :
    rangeSlice body xs l w = rangeSlice yield (xs.map f) l w := by
  induction xs generalizing l w with
  | nil => rfl
  | cons v rest ih => simp [rangeSlice, hb, ih]

theorem Map_enumerates {W T R : Type} (S : Seq W T) (xs : List T) (hS : S.Enumerates xs)
    (f : T → R) : (Map S (pure1 f)).Enumerates (xs.map f) := by
  intro L yield l w
  simp only [Map]
  rw [hS L]
  refine rangeSlice_map f yield _ (fun v l w => ?_) xs l w
  simp [pure1]

/-! ### Machine integers -/

theorem wrapInt_of_range (x : Int) (h1 : minInt ≤ x) (h2 : x ≤ maxInt) : wrapInt x = x := by
  unfold wrapInt
  unfold minInt at h1
  unfold maxInt at h2
  norm_num at h1 h2 ⊢
  omega

theorem minInt_eq : minInt = -9223372036854775808 := by
  unfold minInt
  norm_num

theorem maxInt_eq : maxInt = 9223372036854775807 := by
  unfold maxInt
  norm_num

theorem wrapInt_minInt_pred : wrapInt (minInt - 1) = maxInt := by
  unfold wrapInt minInt maxInt
  norm_num

theorem rangeSlice_count {W T : Type} (xs : List T) (count : Int) (w : W)
    (h0 : 0 ≤ count) (h1 : count + xs.length ≤ maxInt) :
    rangeSlice (fun (_ : T) (count : Int) (w : W) => (true, wrapInt (count + 1), w)) xs count w
      = (count + xs.length, w) := by
  induction xs generalizing count with
  | nil => simp [rangeSlice]
  | cons v rest ih =>
    simp only [List.length_cons, Nat.cast_add, Nat.cast_one] at h1
    have hw : wrapInt (count + 1) = count + 1 :=
      wrapInt_of_range _ (by unfold minInt; omega) (by omega)
    simp only [rangeSlice, hw, if_true]
    rw [ih (count + 1) (by omega) (by omega)]
    simp only [List.length_cons, Nat.cast_add, Nat.cast_one]
    congr 1
    omega

theorem Count_of_enumerates {W T : Type} (S : Seq W T) (xs : List T)
    (hS : S.Enumerates xs) (hlen : (xs.length : Int) ≤ maxInt) (w : W) :
    Count S w = ((xs.length : Int), w) := by
  simp only [Count, hS Int]
  rw [rangeSlice_count xs 0 w (le_refl _) (by omega)]
  simp

/-! ### Limit and Skip -/

theorem rangeSlice_limit {W T L : Type} (yield : T → L → W → Bool × L × W)
    (body : T → Int × L → W → Bool × (Int × L) × W)
    (hb : ∀ v s w, body v s w =
      if wrapInt (s.1 - 1) < 0 then (false, (wrapInt (s.1 - 1), s.2), w)
      else ((yield v s.2 w).1, (wrapInt (s.1 - 1), (yield v s.2 w).2.1), (yield v s.2 w).2.2))
    (xs : List T) (k : Int) (hk1 : minInt < k) (hk2 : k ≤ maxInt) (l : L) (w : W) :
    ((rangeSlice body xs (k, l) w).1.2, (rangeSlice body xs (k, l) w).2)
      = rangeSlice yield (xs.take k.toNat) l w := by
  induction xs generalizing k l w with
  | nil => simp [rangeSlice]
  | cons v rest ih =>
    have hw : wrapInt (k - 1) = k - 1 :=
      wrapInt_of_range _ (by unfold minInt at *; omega) (by omega)
    simp only [rangeSlice, hb, hw]
    by_cases hk : k - 1 < 0
    · have h0 : k.toNat = 0 := by omega
      simp [hk, h0, rangeSlice]
    · have h1 : k.toNat = (k - 1).toNat + 1 := by omega
      simp only [hk, if_false, h1, List.take_succ_cons, rangeSlice]
      cases hy : (yield v l w).1
      · simp
      · simp only [if_true]
        exact ih (k - 1) (by unfold minInt at *; omega) (by omega) _ _

theorem Limit_enumerates {W T : Type} (S : Seq W T) (xs : List T) (hS : S.Enumerates xs)
    (n : Int) (hmin : minInt < n) (hmax : n ≤ maxInt) :
    (Limit S n).Enumerates (xs.take n.toNat) := by
  intro L yield l w
  have h := hS (Int × L)
  simp only [Limit]
  rw [h]
  refine rangeSlice_limit yield _ (fun v s w => ?_) xs n hmin hmax l w
  by_cases hk : wrapInt (s.1 - 1) < 0
  · simp [hk]
  · cases hy : (yield v s.2 w).1 <;> simp [hk, hy]

theorem rangeSlice_skip {W T L : Type} (yield : T → L → W → Bool × L × W)
    (body : T → Int × L → W → Bool × (Int × L) × W)
    (hb : ∀ v s w, body v s w =
      if wrapInt (s.1 - 1) < 0 then
        ((yield v s.2 w).1, (wrapInt (s.1 - 1), (yield v s.2 w).2.1), (yield v s.2 w).2.2)
      else (true, (wrapInt (s.1 - 1), s.2), w))
    (xs : List T) (k : Int) (hk1 : minInt + xs.length ≤ k) (hk2 : k ≤ maxInt) (l : L) (w : W) :
    ((rangeSlice body xs (k, l) w).1.2, (rangeSlice body xs (k, l) w).2)
      = rangeSlice yield (xs.drop k.toNat) l w := by
  induction xs generalizing k l w with
  | nil => simp [rangeSlice]
  | cons v rest ih =>
    simp only [List.length_cons, Nat.cast_add, Nat.cast_one] at hk1
    have hw : wrapInt (k - 1) = k - 1 :=
      wrapInt_of_range _ (by omega) (by omega)
    simp only [rangeSlice, hb, hw]
    by_cases hk : k - 1 < 0
    · have h0 : k.toNat = 0 := by omega
      have h1 : (k - 1).toNat = 0 := by omega
      simp only [hk, if_true, h0, List.drop_zero, rangeSlice]
      cases hy : (yield v l w).1
      · simp
      · simp only [if_true]
        have := ih (k - 1) (by omega) (by omega) (yield v l w).2.1 (yield v l w).2.2
        rw [h1, List.drop_zero] at this
        exact this
    · have h1 : k.toNat = (k - 1).toNat + 1 := by omega
      simp only [hk, if_false, if_true, h1, List.drop_succ_cons]
      exact ih (k - 1) (by omega) (by omega) _ _

theorem Skip_enumerates {W T : Type} (S : Seq W T) (xs : List T) (hS : S.Enumerates xs)
    (n : Int) (hmin : minInt + xs.length ≤ n) (hmax : n ≤ maxInt) :
    (Skip S n).Enumerates (xs.drop n.toNat) := by
  intro L yield l w
  have h := hS (Int × L)
  simp only [Skip]
  rw [h]
  refine rangeSlice_skip yield _ (fun v s w => ?_) xs n hmin hmax l w
  by_cases hk : wrapInt (s.1 - 1) < 0
  · cases hy : (yield v s.2 w).1 <;> simp [hk, hy]
  · simp [hk]

/-! ### Distinct -/

theorem rangeSlice_distinct {W T C L : Type} [DecidableEq C] (f : T → C)
    (yield : T → L → W → Bool × L × W)
    (body : T → List C × L → W → Bool × (List C × L) × W)
    (hb : ∀ v s w, body v s w =
      if f v ∈ s.1 then (true, s, w)
      else if (yield v s.2 w).1 then
        (true, (f v :: s.1, (yield v s.2 w).2.1), (yield v s.2 w).2.2)
      else (false, (s.1, (yield v s.2 w).2.1), (yield v s.2 w).2.2))
    (xs : List T) (seen : List C) (l : L) (w : W) :
    ((rangeSlice body xs (seen, l) w).1.2, (rangeSlice body xs (seen, l) w).2)
      = rangeSlice yield (firstOcc f seen xs) l w := by
  induction xs generalizing seen l w with
  | nil => simp [rangeSlice, firstOcc]
  | cons v rest ih =>
    simp only [rangeSlice, hb, firstOcc]
    by_cases hk : f v ∈ seen
    · simp only [hk, if_true]
      exact ih seen l w
    · simp only [hk, if_false, rangeSlice]
      cases hy : (yield v l w).1
      · simp
      · simp only [if_true]
        exact ih _ _ _

theorem Distinct_enumerates {W T C : Type} [DecidableEq C] (S : Seq W T) (xs : List T)
    (hS : S.Enumerates xs) (f : T → C) :
    (Distinct S (pure1 f)).Enumerates (firstOcc f [] xs) := by
  intro L yield l w
  have h := hS (List C × L)
  simp only [Distinct]
  rw [h]
  refine rangeSlice_distinct f yield _ (fun v s w => ?_) xs [] l w
  by_cases hk : f v ∈ s.1
  · simp [pure1, hk]
  · cases hy : (yield v s.2 w).1 <;> simp [pure1, hk, hy]

theorem firstOcc_eq_zip_inits {T C : Type} [DecidableEq C] (f : T → C) (xs : List T) :
    ∀ (pre : List T) (seen : List C), (∀ k, k ∈ seen ↔ ∃ y ∈ pre, f y = k) →
      firstOcc f seen xs
        = ((xs.zip (xs.inits.map (fun t => pre ++ t))).filter
            (fun p => decide (∀ y ∈ p.2, f y ≠ f p.1))).map Prod.fst := by
  induction xs with
  | nil => intro pre seen _; simp [firstOcc]
  | cons x rest ih =>
    intro pre seen hseen
    have hmap : (rest.inits.map (fun t => x :: t)).map (fun t => pre ++ t)
        = rest.inits.map (fun t => (pre ++ [x]) ++ t) := by
      simp [List.map_map, Function.comp_def]
    simp only [firstOcc, List.inits_cons, List.map_cons, List.append_nil, List.zip_cons_cons,
      List.filter_cons, hmap]
    by_cases hk : f x ∈ seen
    · have hex : ¬ ∀ y ∈ pre, f y ≠ f x := by
        obtain ⟨y, hy, hfy⟩ := (hseen (f x)).1 hk
        exact fun h => h y hy hfy
      have hex2 : decide (∀ y ∈ pre, f y ≠ f x) = false := decide_eq_false hex
      simp only [hk, if_true, hex2, Bool.false_eq_true, if_false]
      refine ih (pre ++ [x]) seen (fun k => ⟨fun h => ?_, fun h => ?_⟩)
      · obtain ⟨y, hy, hfy⟩ := (hseen k).1 h
        exact ⟨y, List.mem_append_left _ hy, hfy⟩
      · obtain ⟨y, hy, hfy⟩ := h
        rcases List.mem_append.1 hy with hy | hy
        · exact (hseen k).2 ⟨y, hy, hfy⟩
        · rw [List.mem_singleton] at hy
          rw [← hfy, hy]
          exact hk
    · have hall : decide (∀ y ∈ pre, f y ≠ f x) = true :=
        decide_eq_true fun y hy hfy => hk ((hseen (f x)).2 ⟨y, hy, hfy⟩)
      simp only [hk, if_false, hall, if_true, List.map_cons]
      congr 1
      refine ih (pre ++ [x]) (f x :: seen) (fun k => ⟨fun h => ?_, fun h => ?_⟩)
      · rcases List.mem_cons.1 h with h | h
        · exact ⟨x, by simp, h.symm⟩
        · obtain ⟨y, hy, hfy⟩ := (hseen k).1 h
          exact ⟨y, List.mem_append_left _ hy, hfy⟩
      · obtain ⟨y, hy, hfy⟩ := h
        rcases List.mem_append.1 hy with hy | hy
        · exact List.mem_cons_of_mem _ ((hseen k).2 ⟨y, hy, hfy⟩)
        · rw [List.mem_singleton] at hy
          rw [← hfy, hy]
          exact List.mem_cons_self _ _

theorem firstOcc_nil_eq {T C : Type} [DecidableEq C] (f : T → C) (xs : List T) :
    firstOcc f [] xs = firstOfEachKey f xs := by
  have h := firstOcc_eq_zip_inits f xs [] [] (by simp)
  simpa [firstOfEachKey] using h

theorem firstOcc_idem {T C : Type} [DecidableEq C] (f : T → C) (xs : List T) :
    ∀ seen : List C, firstOcc f seen (firstOcc f seen xs) = firstOcc f seen xs := by
  induction xs with
  | nil => intro seen; rfl
  | cons x rest ih =>
    intro seen
    by_cases hk : f x ∈ seen
    · simp only [firstOcc, hk, if_true]
      exact ih seen
    · simp only [firstOcc, hk, if_false]
      rw [ih (f x :: seen)]

theorem firstOcc_keys {T C : Type} [DecidableEq C] (f : T → C) (xs : List T) :
    ∀ seen : List C,
      (∀ y ∈ firstOcc f seen xs, f y ∉ seen) ∧
      ((firstOcc f seen xs).map f).Nodup ∧
      (∀ x ∈ xs, f x ∈ seen ∨ f x ∈ (firstOcc f seen xs).map f) := by
  induction xs with
  | nil => intro seen; simp [firstOcc]
  | cons x rest ih =>
    intro seen
    by_cases hk : f x ∈ seen
    · obtain ⟨h1, h2, h3⟩ := ih seen
      simp only [firstOcc, hk, if_true]
      refine ⟨h1, h2, fun y hy => ?_⟩
      rcases List.mem_cons.1 hy with hy | hy
      · rw [hy]
        exact Or.inl hk
      · exact h3 y hy
    · obtain ⟨h1, h2, h3⟩ := ih (f x :: seen)
      simp only [firstOcc, hk, if_false]
      refine ⟨fun y hy => ?_, ?_, fun y hy => ?_⟩
      · rcases List.mem_cons.1 hy with hy | hy
        · rw [hy]
          exact hk
        · exact fun hmem => h1 y hy (List.mem_cons_of_mem _ hmem)
      · rw [List.map_cons, List.nodup_cons]
        refine ⟨fun hmem => ?_, h2⟩
        obtain ⟨y, hy, hfy⟩ := List.mem_map.1 hmem
        exact h1 y hy (by rw [hfy]; exact List.mem_cons_self _ _)
      · rcases List.mem_cons.1 hy with hy | hy
        · rw [hy]
          exact Or.inr (by simp)
        · rcases h3 y hy with h | h
          · rcases List.mem_cons.1 h with h | h
            · exact Or.inr (by simp [h])
            · exact Or.inl h
          · exact Or.inr (by
              rw [List.map_cons]
              exact List.mem_cons_of_mem _ h)

/-! ### Sorted and IsSorted -/

theorem Sorted_enumerates {W T : Type} (sf : SortFunc T) (S : Seq W T) (xs : List T)
    (hS : S.Enumerates xs) (cmp : T → T → Int) :
    (Sorted sf S cmp).Enumerates (sf.sort cmp xs) := by
  intro L yield l w
  have hc : (S.run (List T) (fun v s w => (true, s ++ [v], w)) S.cell [] w).2 = (xs, w) := by
    rw [hS (List T), rangeSlice_append_body, List.nil_append]
  simp only [Sorted]
  rw [hc]
  exact rangeSlice_congr _ _ (fun v l w => guard_eq (yield v l w)) _ l w

theorem ConsistentTotalPreorder.irrefl {T : Type} {cmp : T → T → Int}
    (h : ConsistentTotalPreorder cmp) (a : T) : ¬ cmp a a < 0 := by
  intro hlt
  have := (h.1 a a).1 hlt
  omega

theorem ConsistentTotalPreorder.le_of_not_lt {T : Type} {cmp : T → T → Int}
    (h : ConsistentTotalPreorder cmp) {a b : T} (hba : ¬ cmp b a < 0) : cmp a b ≤ 0 := by
  by_contra hgt
  exact hba ((h.1 b a).2 (by omega))

theorem ConsistentTotalPreorder.lt_trans {T : Type} {cmp : T → T → Int}
    (h : ConsistentTotalPreorder cmp) (a b c : T) (hab : cmp a b < 0) (hbc : cmp b c < 0) :
    cmp a c < 0 := by
  by_contra hac
  have hca : cmp c a ≤ 0 := h.le_of_not_lt hac
  have hcb : cmp c b ≤ 0 := h.2 c a b hca (by omega)
  have := (h.1 b c).1 hbc
  omega

theorem ConsistentTotalPreorder.incomparable_trans {T : Type} {cmp : T → T → Int}
    (h : ConsistentTotalPreorder cmp) (a b c : T)
    (h1 : ¬ cmp a b < 0) (h2 : ¬ cmp b a < 0) (h3 : ¬ cmp b c < 0) (h4 : ¬ cmp c b < 0) :
    ¬ cmp a c < 0 ∧ ¬ cmp c a < 0 := by
  have hab := h.le_of_not_lt h2
  have hba := h.le_of_not_lt h1
  have hbc := h.le_of_not_lt h4
  have hcb := h.le_of_not_lt h3
  have hac := h.2 a b c hab hbc
  have hca := h.2 c b a hcb hba
  refine ⟨fun hlt => ?_, fun hlt => ?_⟩
  · have := (h.1 a c).1 hlt
    omega
  · have := (h.1 c a).1 hlt
    omega

theorem SortFunc.chain_le {T : Type} (sf : SortFunc T) {cmp : T → T → Int}
    (h : ConsistentTotalPreorder cmp) (xs : List T) :
    (sf.sort cmp xs).Chain' (fun a b => cmp a b ≤ 0) :=
  (sf.sorted cmp h.irrefl h.lt_trans h.incomparable_trans xs).imp
    (fun _ _ hba => h.le_of_not_lt hba)

theorem ascending_consistent : ConsistentTotalPreorder ascending := by
  refine ⟨fun a b => ?_, fun a b c => ?_⟩
  · unfold ascending
    split_ifs <;> omega
  · unfold ascending
    split_ifs <;> omega

theorem rangeSlice_isSorted {W T : Type} (cmp : T → T → Int)
    (body : T → IsSortedVars T → W → Bool × IsSortedVars T × W)
    (hb : ∀ v s w, body v s w =
      if s.has = false then (true, { s with last := v, has := true }, w)
      else if cmp s.last v ≥ 0 then (false, { s with ret := false }, w)
      else (true, { s with last := v }, w))
    (xs : List T) (last : T) (w : W) :
    (rangeSlice body xs ⟨last, true, true⟩ w).2 = w ∧
    ((rangeSlice body xs ⟨last, true, true⟩ w).1.ret = true ↔
      List.Chain (fun a b => cmp a b < 0) last xs) := by
  induction xs generalizing last with
  | nil => simp [rangeSlice]
  | cons v rest ih =>
    simp only [rangeSlice, hb, List.chain_cons]
    by_cases hc : cmp last v ≥ 0
    · have : ¬ cmp last v < 0 := by omega
      simp [hc, this]
    · have hlt : cmp last v < 0 := by omega
      simp only [hc, if_false, Bool.true_eq_false, if_true, hlt, true_and]
      exact ih v

theorem IsSorted_of_enumerates {W T : Type} [Inhabited T] (S : Seq W T) (xs : List T)
    (hS : S.Enumerates xs) (cmp : T → T → Int) (w : W) :
    (IsSorted S (pure2 cmp) w).2 = w ∧
    ((IsSorted S (pure2 cmp) w).1 = true ↔ xs.Chain' (fun a b => cmp a b < 0)) := by
  have hb : ∀ (v : T) (s : IsSortedVars T) (w : W),
      (fun (v : T) (s : IsSortedVars T) (w : W) =>
        if !s.has then (true, { s with last := v, has := true }, w)
        else
          let c := (pure2 cmp : Comparator W T) s.last v w
          if c.1 ≥ 0 then (false, { s with ret := false }, c.2)
          else (true, { s with last := v }, c.2)) v s w =
      if s.has = false then (true, { s with last := v, has := true }, w)
      else if cmp s.last v ≥ 0 then (false, { s with ret := false }, w)
      else (true, { s with last := v }, w) := by
    intro v s w
    obtain ⟨last, has, ret⟩ := s
    cases has <;> simp [pure2]
  simp only [IsSorted]
  rw [hS (IsSortedVars T)]
  cases xs with
  | nil => simp [rangeSlice]
  | cons x rest =>
    have h := rangeSlice_isSorted cmp _ hb rest x w
    simp only [rangeSlice, Bool.not_false, if_true]
    exact h

theorem ConsistentTotalPreorder.ne_zero_symm {T : Type} {cmp : T → T → Int}
    (h : ConsistentTotalPreorder cmp) {a b : T} (hab : cmp a b ≠ 0) : cmp b a ≠ 0 := by
  intro hba
  have h1 := h.1 a b
  have h2 := h.1 b a
  omega

theorem SortFunc.chain_lt_iff {T : Type} (sf : SortFunc T) {cmp : T → T → Int}
    (h : ConsistentTotalPreorder cmp) (xs : List T) :
    (sf.sort cmp xs).Chain' (fun a b => cmp a b < 0) ↔
      xs.Pairwise (fun a b => cmp a b ≠ 0) := by
  haveI : IsTrans T (fun a b => cmp a b < 0) := ⟨h.lt_trans⟩
  haveI : IsTrans T (fun a b => cmp a b ≤ 0) := ⟨h.2⟩
  have hperm := sf.perm cmp xs
  constructor
  · intro hlt
    have hp : (sf.sort cmp xs).Pairwise (fun a b => cmp a b ≠ 0) :=
      (List.chain'_iff_pairwise.1 hlt).imp (fun hab => by omega)
    exact (hperm.pairwise_iff (fun hab => h.ne_zero_symm hab)).1 hp
  · intro hne
    have hp : (sf.sort cmp xs).Pairwise (fun a b => cmp a b ≠ 0) :=
      (hperm.pairwise_iff (fun hab => h.ne_zero_symm hab)).2 hne
    have hle : (sf.sort cmp xs).Pairwise (fun a b => cmp a b ≤ 0) :=
      List.chain'_iff_pairwise.1 (sf.chain_le h xs)
    exact ((hle.and hp).imp (fun hab => by omega)).chain'

/-! ### Reduce -/

theorem rangeSlice_reduce {W T : Type} (acc : T → T → T)
    (body : T → T × Bool → W → Bool × (T × Bool) × W)
    (hb : ∀ v s w, body v s w =
      if s.2 = false then (true, (v, true), w) else (true, (acc s.1 v, s.2), w))
    (xs : List T) (r : T) (w : W) :
    rangeSlice body xs (r, true) w = ((xs.foldl acc r, true), w) := by
  induction xs generalizing r with
  | nil => simp [rangeSlice]
  | cons v rest ih => simp [rangeSlice, hb, ih]

theorem Reduce_body_eq {W T : Type} (acc : T → T → T) (v : T) (s : T × Bool) (w : W) :
    (fun (v : T) (s : T × Bool) (w : W) =>
      if !s.2 then (true, (v, true), w)
      else
        let a := (pure2 acc : BinaryOperator W T) s.1 v w
        (true, (a.1, s.2), a.2)) v s w =
    if s.2 = false then (true, (v, true), w) else (true, (acc s.1 v, s.2), w) := by
  obtain ⟨r, has⟩ := s
  cases has <;> simp [pure2]

theorem Reduce_nil {W T : Type} [Inhabited T] (S : Seq W T)
    (hS : S.Enumerates []) (acc : T → T → T) (w : W) :
    Reduce S (pure2 acc) w = ((default, false), w) := by
  simp only [Reduce]
  rw [hS (T × Bool)]
  simp [rangeSlice]

theorem Reduce_cons {W T : Type} [Inhabited T] (S : Seq W T) (x : T) (rest : List T)
    (hS : S.Enumerates (x :: rest)) (acc : T → T → T) (w : W) :
    Reduce S (pure2 acc) w = ((rest.foldl acc x, true), w) := by
  simp only [Reduce]
  rw [hS (T × Bool)]
  simp only [rangeSlice, Bool.not_false, if_true]
  rw [rangeSlice_reduce acc _ (Reduce_body_eq acc) rest x w]
  simp

/-! ### The early-stop contract -/

theorem rangeSlice_inv {W T L : Type} (Good Stopped : L → W → Prop)
    (body : T → L → W → Bool × L × W)
    (hbody : ∀ v l w, Good l w →
      Good (body v l w).2.1 (body v l w).2.2 ∨
      ((body v l w).1 = false ∧ Stopped (body v l w).2.1 (body v l w).2.2))
    (xs : List T) (l : L) (w : W) (h : Good l w) :
    Good (rangeSlice body xs l w).1 (rangeSlice body xs l w).2 ∨
    Stopped (rangeSlice body xs l w).1 (rangeSlice body xs l w).2 := by
  induction xs generalizing l w with
  | nil => exact Or.inl h
  | cons v rest ih =>
    simp only [rangeSlice]
    rcases hbody v l w h with hg | ⟨hf, hs⟩
    · cases hb : (body v l w).1
      · simpa using Or.inl hg
      · simpa using ih _ _ hg
    · rw [hf]
      simpa using Or.inr hs

theorem Filter_inv {W T L : Type} (Good Stopped : L → W → Prop)
    (test : Predicate W T) (htest : ∀ v l w, Good l w → Good l (test v w).2)
    (yield : T → L → W → Bool × L × W) (hy : StopsCleanly Good Stopped yield)
    (S : Seq W T) (xs : List T) (hS : S.Enumerates xs) (l : L) (w : W) (h : Good l w) :
    Good ((Filter S test).run L yield (Filter S test).cell l w).2.1
        ((Filter S test).run L yield (Filter S test).cell l w).2.2 ∨
    Stopped ((Filter S test).run L yield (Filter S test).cell l w).2.1
        ((Filter S test).run L yield (Filter S test).cell l w).2.2 := by
  simp only [Filter]
  rw [hS L]
  refine rangeSlice_inv Good Stopped _ (fun v l w hg => ?_) xs l w h
  have ht := htest v l w hg
  by_cases htv : (test v w).1 = true
  · rcases hy v l (test v w).2 ht with ⟨h1, h2⟩ | ⟨h1, h2⟩
    · simp [htv, h1, h2]
    · simp [htv, h1, h2]
  · simp [htv, ht]

theorem Map_inv {W T R L : Type} (Good Stopped : L → W → Prop)
    (f : UnaryFunction W T R) (hf : ∀ v l w, Good l w → Good l (f v w).2)
    (yield : R → L → W → Bool × L × W) (hy : StopsCleanly Good Stopped yield)
    (S : Seq W T) (xs : List T) (hS : S.Enumerates xs) (l : L) (w : W) (h : Good l w) :
    Good ((Map S f).run L yield (Map S f).cell l w).2.1
        ((Map S f).run L yield (Map S f).cell l w).2.2 ∨
    Stopped ((Map S f).run L yield (Map S f).cell l w).2.1
        ((Map S f).run L yield (Map S f).cell l w).2.2 := by
  simp only [Map]
  rw [hS L]
  refine rangeSlice_inv Good Stopped _ (fun v l w hg => ?_) xs l w h
  rcases hy (f v w).1 l (f v w).2 (hf v l w hg) with ⟨h1, h2⟩ | ⟨h1, h2⟩
  · simp [h1, h2]
  · simp [h1, h2]

theorem Peek_inv {W T L : Type} (Good Stopped : L → W → Prop)
    (accept : Consumer W T) (ha : ∀ v l w, Good l w → Good l (accept v w))
    (yield : T → L → W → Bool × L × W) (hy : StopsCleanly Good Stopped yield)
    (S : Seq W T) (xs : List T) (hS : S.Enumerates xs) (l : L) (w : W) (h : Good l w) :
    Good ((Peek S accept).run L yield (Peek S accept).cell l w).2.1
        ((Peek S accept).run L yield (Peek S accept).cell l w).2.2 ∨
    Stopped ((Peek S accept).run L yield (Peek S accept).cell l w).2.1
        ((Peek S accept).run L yield (Peek S accept).cell l w).2.2 := by
  simp only [Peek]
  rw [hS L]
  refine rangeSlice_inv Good Stopped _ (fun v l w hg => ?_) xs l w h
  rcases hy v l (accept v w) (ha v l w hg) with ⟨h1, h2⟩ | ⟨h1, h2⟩
  · simp [h1, h2]
  · simp [h1, h2]

theorem Until_inv {W T L : Type} (Good Stopped : L → W → Prop)
    (isMatch : Predicate W T) (hm : ∀ v l w, Good l w → Good l (isMatch v w).2)
    (yield : T → L → W → Bool × L × W) (hy : StopsCleanly Good Stopped yield)
    (S : Seq W T) (xs : List T) (hS : S.Enumerates xs) (l : L) (w : W) (h : Good l w) :
    Good ((Until S isMatch).run L yield (Until S isMatch).cell l w).2.1
        ((Until S isMatch).run L yield (Until S isMatch).cell l w).2.2 ∨
    Stopped ((Until S isMatch).run L yield (Until S isMatch).cell l w).2.1
        ((Until S isMatch).run L yield (Until S isMatch).cell l w).2.2 := by
  simp only [Until]
  rw [hS L]
  refine rangeSlice_inv Good Stopped _ (fun v l w hg => ?_) xs l w h
  have ht := hm v l w hg
  by_cases htv : (isMatch v w).1 = true
  · simp [htv, ht]
  · rcases hy v l (isMatch v w).2 ht with ⟨h1, h2⟩ | ⟨h1, h2⟩
    · simp [htv, h1, h2]
    · simp [htv, h1, h2]

theorem rangeSlice_inv_snd {W T A L : Type} (Good Stopped : L → W → Prop)
    (body : T → A × L → W → Bool × (A × L) × W)
    (hbody : ∀ v s w, Good s.2 w →
      Good (body v s w).2.1.2 (body v s w).2.2 ∨
      ((body v s w).1 = false ∧ Stopped (body v s w).2.1.2 (body v s w).2.2))
    (xs : List T) (a : A) (l : L) (w : W) (h : Good l w) :
    Good (rangeSlice body xs (a, l) w).1.2 (rangeSlice body xs (a, l) w).2 ∨
    Stopped (rangeSlice body xs (a, l) w).1.2 (rangeSlice body xs (a, l) w).2 :=
  rangeSlice_inv (fun (s : A × L) (w : W) => Good s.2 w) (fun s w => Stopped s.2 w)
    body hbody xs (a, l) w h

theorem rangeSlice_inv_flag {W T L : Type} (Good Stopped : L → W → Prop)
    (body : T → Bool × L → W → Bool × (Bool × L) × W)
    (hbody : ∀ v s w, s.1 = false → Good s.2 w →
      ((body v s w).2.1.1 = false ∧ Good (body v s w).2.1.2 (body v s w).2.2) ∨
      ((body v s w).1 = false ∧ (body v s w).2.1.1 = true ∧
        Stopped (body v s w).2.1.2 (body v s w).2.2))
    (xs : List T) (l : L) (w : W) (h : Good l w) :
    ((rangeSlice body xs (false, l) w).1.1 = false ∧
      Good (rangeSlice body xs (false, l) w).1.2 (rangeSlice body xs (false, l) w).2) ∨
    ((rangeSlice body xs (false, l) w).1.1 = true ∧
      Stopped (rangeSlice body xs (false, l) w).1.2 (rangeSlice body xs (false, l) w).2) :=
  rangeSlice_inv (fun (s : Bool × L) (w : W) => s.1 = false ∧ Good s.2 w)
    (fun s w => s.1 = true ∧ Stopped s.2 w) body
    (fun v s w hg => hbody v s w hg.1 hg.2) xs (false, l) w ⟨rfl, h⟩

theorem rangeSlice_inv_flag_snd {W T L : Type} (Good Stopped : L → W → Prop)
    (body : T → Bool × L → W → Bool × (Bool × L) × W)
    (hbody : ∀ v s w, s.1 = false → Good s.2 w →
      ((body v s w).2.1.1 = false ∧ Good (body v s w).2.1.2 (body v s w).2.2) ∨
      ((body v s w).1 = false ∧ (body v s w).2.1.1 = true ∧
        Stopped (body v s w).2.1.2 (body v s w).2.2))
    (xs : List T) (l : L) (w : W) (h : Good l w) :
    Good (rangeSlice body xs (false, l) w).1.2 (rangeSlice body xs (false, l) w).2 ∨
    Stopped (rangeSlice body xs (false, l) w).1.2 (rangeSlice body xs (false, l) w).2 :=
  (rangeSlice_inv_flag Good Stopped body hbody xs l w h).imp And.right And.right

theorem Distinct_inv {W T C L : Type} [DecidableEq C] (Good Stopped : L → W → Prop)
    (f : UnaryFunction W T C) (hf : ∀ v l w, Good l w → Good l (f v w).2)
    (yield : T → L → W → Bool × L × W) (hy : StopsCleanly Good Stopped yield)
    (S : Seq W T) (xs : List T) (hS : S.Enumerates xs) (l : L) (w : W) (h : Good l w) :
    Good ((Distinct S f).run L yield (Distinct S f).cell l w).2.1
        ((Distinct S f).run L yield (Distinct S f).cell l w).2.2 ∨
    Stopped ((Distinct S f).run L yield (Distinct S f).cell l w).2.1
        ((Distinct S f).run L yield (Distinct S f).cell l w).2.2 := by
  have hS2 := hS (List C × L)
  simp only [Distinct]
  rw [hS2]
  refine rangeSlice_inv_snd Good Stopped _ (fun v s w hg => ?_) xs [] l w h
  have ht := hf v s.2 w hg
  by_cases hk : (f v w).1 ∈ s.1
  · simp [hk, ht]
  · rcases hy v s.2 (f v w).2 ht with ⟨h1, h2⟩ | ⟨h1, h2⟩
    · simp [hk, h1, h2]
    · simp [hk, h1, h2]

theorem Enumerate_inv {W T L : Type} (Good Stopped : L → W → Prop)
    (yield : Pair Int T → L → W → Bool × L × W) (hy : StopsCleanly Good Stopped yield)
    (S : Seq W T) (xs : List T) (hS : S.Enumerates xs) (l : L) (w : W) (h : Good l w) :
    Good ((Enumerate S).run L yield (Enumerate S).cell l w).2.1
        ((Enumerate S).run L yield (Enumerate S).cell l w).2.2 ∨
    Stopped ((Enumerate S).run L yield (Enumerate S).cell l w).2.1
        ((Enumerate S).run L yield (Enumerate S).cell l w).2.2 := by
  have hS2 := hS (Int × L)
  simp only [Enumerate]
  rw [hS2]
  refine rangeSlice_inv_snd Good Stopped _ (fun v s w hg => ?_) xs 0 l w h
  rcases hy (PairOf s.1 v) s.2 w hg with ⟨h1, h2⟩ | ⟨h1, h2⟩
  · simp [h1, h2]
  · simp [h1, h2]

theorem inner_inv {W R L : Type} (Good Stopped : L → W → Prop)
    (yield : R → L → W → Bool × L × W) (hy : StopsCleanly Good Stopped yield)
    (ys : List R) (l : L) (w : W) (h : Good l w) :
    ((rangeSlice (innerBody yield) ys (false, l) w).1.1 = false ∧
      Good (rangeSlice (innerBody yield) ys (false, l) w).1.2
        (rangeSlice (innerBody yield) ys (false, l) w).2) ∨
    ((rangeSlice (innerBody yield) ys (false, l) w).1.1 = true ∧
      Stopped (rangeSlice (innerBody yield) ys (false, l) w).1.2
        (rangeSlice (innerBody yield) ys (false, l) w).2) := by
  refine rangeSlice_inv_flag Good Stopped _ (fun v s w hflag hg => ?_) ys l w h
  rcases hy v s.2 w hg with ⟨h1, h2⟩ | ⟨h1, h2⟩
  · simp [innerBody, h1, h2, hflag]
  · simp [innerBody, h1, h2]

theorem FlatMap_inv {W T R L : Type} (Good Stopped : L → W → Prop)
    (flatten : T → W → Seq W R × W) (hf : ∀ v l w, Good l w → Good l (flatten v w).2)
    (hsub : ∀ v w, ∃ ys, (flatten v w).1.Enumerates ys)
    (yield : R → L → W → Bool × L × W) (hy : StopsCleanly Good Stopped yield)
    (S : Seq W T) (xs : List T) (hS : S.Enumerates xs) (l : L) (w : W) (h : Good l w) :
    Good ((FlatMap S flatten).run L yield (FlatMap S flatten).cell l w).2.1
        ((FlatMap S flatten).run L yield (FlatMap S flatten).cell l w).2.2 ∨
    Stopped ((FlatMap S flatten).run L yield (FlatMap S flatten).cell l w).2.1
        ((FlatMap S flatten).run L yield (FlatMap S flatten).cell l w).2.2 := by
  have hS2 := hS (Bool × L)
  simp only [FlatMap]
  rw [hS2]
  refine rangeSlice_inv_flag_snd Good Stopped _ (fun v s w hflag hg => ?_) xs l w h
  obtain ⟨ys, hys⟩ := hsub v w
  have hys2 := hys (Bool × L) (innerBody yield)
  have hs : s = (false, s.2) := by
    obtain ⟨b, l2⟩ := s
    simp only at hflag
    rw [hflag]
  rw [hs]
  simp only [hys2]
  rcases inner_inv Good Stopped yield hy ys s.2 (flatten v w).2 (hf v s.2 w hg) with hi | hi
  · left
    simp only [hi.1]
    simpa using hi
  · right
    simp only [hi.1]
    simpa using hi

theorem Chain_inv {W T L : Type} (Good Stopped : L → W → Prop)
    (yield : T → L → W → Bool × L × W) (hy : StopsCleanly Good Stopped yield)
    (xss : List (List T)) (l : L) (w : W) (h : Good l w) :
    Good ((Chain (xss.map SliceAllValues)).run L yield
          (Chain (xss.map SliceAllValues)).cell l w).2.1
        ((Chain (xss.map SliceAllValues)).run L yield
          (Chain (xss.map SliceAllValues)).cell l w).2.2 ∨
    Stopped ((Chain (xss.map SliceAllValues)).run L yield
          (Chain (xss.map SliceAllValues)).cell l w).2.1
        ((Chain (xss.map SliceAllValues)).run L yield
          (Chain (xss.map SliceAllValues)).cell l w).2.2 := by
  induction xss generalizing l w with
  | nil => exact Or.inl h
  | cons xs rest ih =>
    have hE := (SliceAllValues_enumerates xs : (SliceAllValues xs : Seq W T).Enumerates xs)
      (Bool × L) (innerBody yield) (false, l) w
    simp only [List.map_cons, Chain]
    rw [hE]
    rcases inner_inv Good Stopped yield hy xs l w h with hi | hi
    · simp only [hi.1, Bool.false_eq_true, if_false]
      exact ih _ _ hi.2
    · simp only [hi.1, if_true]
      exact Or.inr hi.2

theorem stopAt_stopsCleanly {T R : Type} (k : Nat) :
    StopsCleanly (Running k) (Halted k) (stopAt k : R → Nat → List (Event T R) → _) := by
  intro r n log hg
  obtain ⟨hn, hlt⟩ := hg
  have hcount : n + 1 = ((log ++ [Event.yielded r]).filter Event.isYielded).length := by
    simp [List.filter_append, Event.isYielded, hn]
  by_cases hk : n + 1 < k
  · left
    exact ⟨by simp [stopAt, hk], hcount, hk⟩
  · right
    exact ⟨by simp [stopAt, hk], hcount, by simp only [stopAt]; omega, log, r, rfl⟩

theorem Running_called {T R : Type} (k n : Nat) (log : List (Event T R)) (v : T)
    (h : Running k n log) : Running k n (log ++ [Event.called v]) := by
  obtain ⟨hn, hlt⟩ := h
  exact ⟨by simp [List.filter_append, Event.isYielded, hn], hlt⟩

theorem EarlyStop_of {T R : Type} (k : Nat) (out : Nat × List (Event T R))
    (h : Running k out.1 out.2 ∨ Halted k out.1 out.2) : EarlyStop k out := by
  rcases h with ⟨hn, hlt⟩ | ⟨hn, hk, hlast⟩
  · exact ⟨hn, by omega, fun he => by omega⟩
  · exact ⟨hn, by omega, fun _ => hlast⟩

theorem Running_start {T R : Type} (k : Nat) (hk : 1 ≤ k) :
    Running k 0 ([] : List (Event T R)) :=
  ⟨rfl, by omega⟩

/-! ### Restartable sequences, Enumerate and Unzip -/

theorem Seq.Stable.enumerates {W T : Type} {S : Seq W T} {xs : List T} (h : S.Stable xs) :
    S.Enumerates xs :=
  fun L yield l w => h S.cell L yield l w

theorem SliceAllValues_stable {W T : Type} (xs : List T) :
    (SliceAllValues xs : Seq W T).Stable xs := by
  intro c L yield l w
  exact rangeSlice_congr _ _ (fun v l w => guard_eq (yield v l w)) xs l w

theorem driveTwice_of_stable {W T : Type} (S : Seq W T) (ys : List T) (hS : S.Stable ys)
    (w : W) : driveTwice S w = (ys, ys, w) := by
  simp only [driveTwice, Seq.range]
  rw [hS S.cell (List T), rangeSlice_append_body]
  simp only [List.nil_append]
  rw [hS _ (List T), rangeSlice_append_body]
  simp

theorem rangeSlice_enumerate {W T L : Type} (yield : Pair Int T → L → W → Bool × L × W)
    (body : T → Int × L → W → Bool × (Int × L) × W)
    (hb : ∀ v s w, body v s w =
      if (yield (PairOf s.1 v) s.2 w).1 then
        (true, (wrapInt (s.1 + 1), (yield (PairOf s.1 v) s.2 w).2.1),
          (yield (PairOf s.1 v) s.2 w).2.2)
      else (false, (s.1, (yield (PairOf s.1 v) s.2 w).2.1), (yield (PairOf s.1 v) s.2 w).2.2))
    (xs : List T) (k : Nat) (hk : (k : Int) + xs.length ≤ maxInt) (l : L) (w : W) :
    ((rangeSlice body xs ((k : Int), l) w).1.2, (rangeSlice body xs ((k : Int), l) w).2)
      = rangeSlice yield ((xs.enumFrom k).map (fun p => PairOf (p.1 : Int) p.2)) l w := by
  induction xs generalizing k l w with
  | nil => simp [rangeSlice]
  | cons v rest ih =>
    simp only [List.length_cons, Nat.cast_add, Nat.cast_one] at hk
    have hw : wrapInt ((k : Int) + 1) = ((k + 1 : Nat) : Int) := by
      rw [wrapInt_of_range _ (by rw [minInt_eq]; omega) (by omega)]
      simp
    simp only [rangeSlice, hb, List.enumFrom_cons, List.map_cons]
    cases hy : (yield (PairOf (k : Int) v) l w).1
    · simp
    · simp only [if_true, hw]
      exact ih (k + 1) (by push_cast; omega) _ _

theorem Enumerate_run {W T : Type} (S : Seq W T) (xs : List T) (c : S.Cell)
    (hc : ∀ (L : Type) (yield : T → L → W → Bool × L × W) (l : L) (w : W),
      (S.run L yield c l w).2 = rangeSlice yield xs l w)
    (hlen : (xs.length : Int) ≤ maxInt)
    (L : Type) (yield : Pair Int T → L → W → Bool × L × W) (l : L) (w : W) :
    ((Enumerate S).run L yield c l w).2 = rangeSlice yield (withPositions xs) l w := by
  have h := hc (Int × L)
  simp only [Enumerate]
  rw [h]
  refine rangeSlice_enumerate yield _ (fun v s w => ?_) xs 0 (by simpa using hlen) l w
  cases hy : (yield (PairOf s.1 v) s.2 w).1 <;> simp [hy]

theorem Enumerate_enumerates {W T : Type} (S : Seq W T) (xs : List T) (hS : S.Enumerates xs)
    (hlen : (xs.length : Int) ≤ maxInt) : (Enumerate S).Enumerates (withPositions xs) :=
  fun L yield l w => Enumerate_run S xs S.cell hS hlen L yield l w

theorem Enumerate_stable {W T : Type} (S : Seq W T) (xs : List T) (hS : S.Stable xs)
    (hlen : (xs.length : Int) ≤ maxInt) : (Enumerate S).Stable (withPositions xs) :=
  fun c L yield l w => Enumerate_run S xs c (hS c) hlen L yield l w

theorem withPositions_first {T : Type} (xs : List T) :
    (withPositions xs).map Pair.First = (List.range xs.length).map (fun i : Nat => (i : Int)) := by
  rw [← List.enum_map_fst xs, List.map_map]
  simp only [withPositions, List.map_map]
  rfl

theorem withPositions_second {T : Type} (xs : List T) :
    (withPositions xs).map Pair.Second = xs := by
  conv_rhs => rw [← List.enum_map_snd xs]
  simp only [withPositions, List.map_map]
  rfl

theorem rangeSlice_unzip {W A B : Type} (ps : List (Pair A B)) (s : List A × List B) (w : W) :
    rangeSlice (fun (p : Pair A B) (s : List A × List B) (w : W) =>
      (true, (s.1 ++ [p.First], s.2 ++ [p.Second]), w)) ps s w
      = ((s.1 ++ ps.map Pair.First, s.2 ++ ps.map Pair.Second), w) := by
  induction ps generalizing s with
  | nil => simp [rangeSlice]
  | cons p rest ih => simp [rangeSlice, ih]

theorem Unzip_of_enumerates {W A B : Type} (S : Seq W (Pair A B)) (ps : List (Pair A B))
    (hS : S.Enumerates ps) (w : W) :
    Unzip S w = ((ps.map Pair.First, ps.map Pair.Second), w) := by
  simp only [Unzip]
  rw [hS (List A × List B), rangeSlice_unzip]
  simp

theorem zipWith_PairOf_first {A B : Type} (as : List A) (bs : List B)
    (h : as.length = bs.length) : (List.zipWith PairOf as bs).map Pair.First = as := by
  induction as generalizing bs with
  | nil => simp
  | cons a rest ih =>
    cases bs with
    | nil => simp at h
    | cons b restB =>
      simp only [List.length_cons, Nat.succ.injEq] at h
      simp [PairOf, ih restB (by omega)]

theorem zipWith_PairOf_second {A B : Type} (as : List A) (bs : List B)
    (h : as.length = bs.length) : (List.zipWith PairOf as bs).map Pair.Second = bs := by
  induction as generalizing bs with
  | nil =>
    cases bs with
    | nil => simp
    | cons b restB => simp at h
  | cons a rest ih =>
    cases bs with
    | nil => simp at h
    | cons b restB =>
      simp only [List.length_cons, Nat.succ.injEq] at h
      simp [PairOf, ih restB (by omega)]

/-! ### JoinBy -/

theorem rangeSlice_joinBy {W T B : Type} (ts : T → List B) (sep : List B)
    (body : T → List B → W → Bool × List B × W)
    (hb : ∀ v b w, body v b w = (true, b ++ ts v ++ sep, w))
    (xs : List T) (b : List B) (w : W) :
    rangeSlice body xs b w = (b ++ withTrailingSep ts sep xs, w) := by
  induction xs generalizing b with
  | nil => simp [rangeSlice, withTrailingSep]
  | cons v rest ih => simp [rangeSlice, withTrailingSep, ih, hb]

theorem withTrailingSep_eq {T B : Type} (ts : T → List B) (sep : List B) (x : T)
    (rest : List T) :
    withTrailingSep ts sep (x :: rest) = joinWith sep ((x :: rest).map ts) ++ sep := by
  induction rest generalizing x with
  | nil => simp [withTrailingSep, joinWith]
  | cons y rest ih =>
    have h := ih y
    simp only [List.map_cons] at h
    simp only [withTrailingSep, List.map_cons, joinWith] at h ⊢
    rw [h]
    simp

theorem JoinBy_cons {W T B : Type} (S : Seq W T) (x : T) (rest : List T)
    (hS : S.Enumerates (x :: rest)) (ts : T → List B) (sep : List B) (w : W) :
    JoinBy S (pure1 ts) sep w = (some (joinWith sep ((x :: rest).map ts)), w) := by
  simp only [JoinBy]
  rw [hS (List B), rangeSlice_joinBy ts sep _ (fun v b w => by simp [pure1]),
    withTrailingSep_eq]
  simp

theorem JoinBy_nil {W T B : Type} (S : Seq W T) (hS : S.Enumerates [])
    (ts : T → List B) (c : B) (sep : List B) (w : W) :
    JoinBy S (pure1 ts) (c :: sep) w = (none, w) := by
  simp only [JoinBy]
  rw [hS (List B)]
  have h : ((([] : List B).length : Int) - ((c :: sep).length : Int)) < 0 := by
    simp only [List.length_nil, List.length_cons, Nat.cast_add, Nat.cast_one]
    omega
  simp only [rangeSlice, h, if_true]

/-! ### RangeAll -/

theorem rangeLoop_spec {W L : Type} (endv step : Int) (hstep : 0 < step)
    (body : Int → L → W → Bool × L × W) :
    ∀ (d : Nat) (v : Int), (endv - v + 1).toNat ≤ d → minInt ≤ v →
      (∀ k : Nat, v + k * step ≤ endv → v + (k + 1) * step ≤ maxInt) →
      ∃ n : Nat, (∀ k : Nat, k < n ↔ v + k * step ≤ endv) ∧
        ∀ fuel, n < fuel → ∀ (l : L) (w : W),
          rangeLoop endv step body fuel v l w
            = some (rangeSlice body ((List.range n).map (fun k : Nat => v + k * step)) l w) := by
  intro d
  induction d with
  | zero =>
    intro v hd _ _
    have hv : endv < v := by omega
    refine ⟨0, fun k => ⟨fun h => absurd h (Nat.not_lt_zero k), fun h => ?_⟩, ?_⟩
    · have : (0 : Int) ≤ k * step := by positivity
      linarith
    · intro fuel hf l w
      obtain ⟨f, rfl⟩ : ∃ f, fuel = f + 1 := ⟨fuel - 1, by omega⟩
      simp [rangeLoop, rangeSlice, not_le.2 hv]
  | succ d ih =>
    intro v hd hmin hno
    by_cases hv : v ≤ endv
    · have hnext : v + step ≤ maxInt := by
        have := hno 0 (by simpa using hv)
        simpa using this
      have hw : wrapInt (v + step) = v + step :=
        wrapInt_of_range _ (by omega) hnext
      obtain ⟨n, hn, hrun⟩ := ih (v + step) (by omega) (by omega) (fun k hk => by
        have := hno (k + 1) (by push_cast; linarith)
        push_cast at this
        linarith)
      refine ⟨n + 1, fun k => ?_, ?_⟩
      · cases k with
        | zero => simpa using hv
        | succ j =>
          have hj := hn j
          constructor
          · intro h
            have := hj.1 (by omega)
            push_cast
            linarith
          · intro h
            push_cast at h
            have := hj.2 (by linarith)
            omega
      · intro fuel hf l w
        obtain ⟨f, rfl⟩ : ∃ f, fuel = f + 1 := ⟨fuel - 1, by omega⟩
        have hlist : (List.range (n + 1)).map (fun k : Nat => v + k * step)
            = v :: (List.range n).map (fun k : Nat => v + step + k * step) := by
          rw [List.range_succ_eq_map, List.map_cons, List.map_map]
          congr 1
          · simp
          · apply List.map_congr_left
            intro k _
            simp only [Function.comp_apply, Nat.succ_eq_add_one]
            push_cast
            ring
        rw [hlist]
        simp only [rangeLoop, hv, if_true, rangeSlice, hw]
        cases hy : (body v l w).1
        · simp
        · simp only [if_true]
          exact hrun f (by omega) _ _
    · have hv2 : endv < v := not_le.1 hv
      refine ⟨0, fun k => ⟨fun h => absurd h (Nat.not_lt_zero k), fun h => ?_⟩, ?_⟩
      · have : (0 : Int) ≤ k * step := by positivity
        linarith
      · intro fuel hf l w
        obtain ⟨f, rfl⟩ : ∃ f, fuel = f + 1 := ⟨fuel - 1, by omega⟩
        simp [rangeLoop, rangeSlice, hv]

theorem RangeAll_enumerates {W : Type} (fuel : Nat) (begin endv step : Int) (ys : List Int)
    (h : ∀ (L : Type) (body : Int → L → W → Bool × L × W) (l : L) (w : W),
      rangeLoop endv step body fuel begin l w = some (rangeSlice body ys l w)) :
    (RangeAll fuel begin endv step : Seq W Int).Enumerates ys := by
  intro L yield l w
  simp only [RangeAll]
  rw [h L]
  exact rangeSlice_congr _ _ (fun v l w => guard_eq (yield v l w)) ys l w

theorem RangeAll_1_10_2 {W : Type} (fuel : Nat) (hf : 5 < fuel) :
    (RangeAll fuel 1 10 2 : Seq W Int).Enumerates [1, 3, 5, 7, 9] := by
  refine RangeAll_enumerates fuel 1 10 2 _ (fun L body l w => ?_)
  obtain ⟨n, hn, hrun⟩ := rangeLoop_spec (10 : Int) 2 (by decide) body 10 1
    (by decide) (by decide) (fun k _ => by rw [maxInt_eq]; omega)
  have h5 : n = 5 := by
    have h4 := (hn 4).2 (by decide)
    have h5 := (hn 5).1
    by_contra hne
    have : 5 < n := by omega
    have := h5 this
    omega
  subst h5
  exact hrun fuel hf l w

/-! ### Operator, At and the backward adapters -/

theorem rangeSlice_operator {W T : Type} (body : T → T × Int → W → Bool × (T × Int) × W)
    (hb : ∀ v r w, body v (r, 0) w = (true, (v, 0), w))
    (xs : List T) (r : T) (w : W) :
    rangeSlice body xs (r, 0) w = ((xs.getLast?.getD r, 0), w) := by
  induction xs generalizing r with
  | nil => simp [rangeSlice]
  | cons v rest ih =>
    simp only [rangeSlice, hb, if_true, ih]
    cases rest with
    | nil => simp
    | cons y ys =>
      obtain ⟨z, hz⟩ : ∃ z, (y :: ys).getLast? = some z :=
        ⟨_, List.getLast?_eq_getLast _ (by simp)⟩
      simp [List.getLast?_cons_cons, hz]

theorem Operator_returns_last {W T : Type} [Inhabited T] (S : Seq W T) (xs : List T)
    (hS : S.Enumerates xs) (add : BinaryOperator W T) (w : W) :
    Operator S add w = (xs.getLast?.getD default, w) := by
  simp only [Operator]
  rw [hS (T × Int), rangeSlice_operator _ (fun v r w => by simp) xs default w]

theorem rangeSlice_at_miss {W T : Type} (index : Int) (hne : index ≠ 0)
    (body : T → Int × Option T → W → Bool × (Int × Option T) × W)
    (hb : ∀ v s w, body v s w = if s.1 == index then (false, (s.1, some v), w) else (true, s, w))
    (xs : List T) (w : W) :
    rangeSlice body xs (0, none) w = ((0, none), w) := by
  induction xs with
  | nil => simp [rangeSlice]
  | cons v rest ih =>
    have h : ((0 : Int) == index) = false := by
      simp only [beq_eq_false_iff_ne, ne_eq]
      exact fun h => hne h.symm
    simp only [rangeSlice, hb, h, Bool.false_eq_true, if_false, if_true, ih]

theorem At_nonzero_index {W T : Type} [Inhabited T] (S : Seq W T) (xs : List T)
    (hS : S.Enumerates xs) (index : Int) (hne : index ≠ 0) (w : W) :
    At S index w = ((default, false), w) := by
  simp only [At]
  rw [hS (Int × Option T), rangeSlice_at_miss index hne _ (fun v s w => rfl) xs w]

theorem loopDown_const {W T L : Type} (yield : T → L → W → Bool × L × W) (x : T)
    (body : L → W → Bool × L × W) (hb : ∀ l w, body l w = yield x l w)
    (n : Nat) (l : L) (w : W) :
    loopDown body n l w = rangeSlice yield (List.replicate n x) l w := by
  induction n generalizing l w with
  | zero => rfl
  | succ n ih =>
    simp only [loopDown, List.replicate_succ, rangeSlice, hb]
    cases hy : (yield x l w).1
    · simp
    · simp only [if_true]
      exact ih _ _

theorem SliceBackwardValues_enumerates {W T : Type} [Inhabited T] (xs : List T) :
    (SliceBackwardValues xs : Seq W T).Enumerates
      (List.replicate (xs.length - 1) (xs.getD (xs.length - 1) default)) := by
  intro L yield l w
  simp only [SliceBackwardValues]
  have h1 : ((xs.length : Int) - 1).toNat = xs.length - 1 := by omega
  rw [h1]
  exact loopDown_const yield _ _ (fun l w => guard_eq _) _ l w

/-! ### Limit over Peek -/

theorem rangeSlice_limit_peek {W T : Type} (accept : Consumer W T)
    (body : T → Int × List T → W → Bool × (Int × List T) × W)
    (hb : ∀ v s w, body v s w =
      if wrapInt (s.1 - 1) < 0 then (false, (wrapInt (s.1 - 1), s.2), accept v w)
      else (true, (wrapInt (s.1 - 1), s.2 ++ [v]), accept v w))
    (xs : List T) (k : Int) (hk0 : 0 ≤ k) (hk1 : k ≤ maxInt) (acc : List T) (w : W) :
    ((rangeSlice body xs (k, acc) w).1.2, (rangeSlice body xs (k, acc) w).2)
      = (acc ++ xs.take k.toNat, (xs.take (k.toNat + 1)).foldl (fun w v => accept v w) w) := by
  induction xs generalizing k acc w with
  | nil => simp [rangeSlice]
  | cons v rest ih =>
    have hw : wrapInt (k - 1) = k - 1 :=
      wrapInt_of_range _ (by rw [minInt_eq]; omega) (by omega)
    simp only [rangeSlice, hb, hw]
    by_cases hk : k - 1 < 0
    · have h0 : k.toNat = 0 := by omega
      simp [hk, h0]
    · have h1 : k.toNat = (k - 1).toNat + 1 := by omega
      simp only [hk, if_false, if_true]
      rw [ih (k - 1) (by omega) (by omega), h1]
      simp

theorem Limit_Peek_drain {W T : Type} (S : Seq W T) (xs : List T) (hS : S.Enumerates xs)
    (accept : Consumer W T) (n : Int) (h0 : 0 ≤ n) (h1 : n ≤ maxInt) (w : W) :
    ToSlice (Limit (Peek S accept) n) w
      = (xs.take n.toNat, (xs.take (n.toNat + 1)).foldl (fun w v => accept v w) w) := by
  have h := hS (Int × List T)
  simp only [ToSlice, Limit, Peek]
  rw [h]
  refine (rangeSlice_limit_peek accept _ (fun v s w => ?_) xs n h0 h1 [] w).trans (by simp)
  by_cases hk : wrapInt (s.1 - 1) < 0 <;> simp [hk]

theorem foldl_loggedConsumer {T R : Type} (ys : List T) (log : List (Event T R)) :
    ys.foldl (fun w v => loggedConsumer v w) log = log ++ ys.map Event.called := by
  induction ys generalizing log with
  | nil => simp
  | cons y rest ih =>
    rw [List.foldl_cons, ih]
    simp [loggedConsumer]

/-! ### The early-stop contract, by position in the source -/

theorem rangeSlice_by_position {W T L : Type} (body : T → L → W → Bool × L × W)
    (P Q : List T → L → W → Prop)
    (hstep : ∀ pre v l w, P pre l w →
      ((body v l w).1 = true ∧ P (pre ++ [v]) (body v l w).2.1 (body v l w).2.2) ∨
      ((body v l w).1 = false ∧ Q (pre ++ [v]) (body v l w).2.1 (body v l w).2.2))
    (xs : List T) (pre : List T) (l : L) (w : W) (h : P pre l w) :
    P (pre ++ xs) (rangeSlice body xs l w).1 (rangeSlice body xs l w).2 ∨
    ∃ j, j < xs.length ∧
      P (pre ++ xs.take j) (rangeSlice body (xs.take j) l w).1
        (rangeSlice body (xs.take j) l w).2 ∧
      Q (pre ++ xs.take (j + 1)) (rangeSlice body xs l w).1 (rangeSlice body xs l w).2 ∧
      rangeSlice body (xs.take (j + 1)) l w = rangeSlice body xs l w := by
  induction xs generalizing pre l w with
  | nil => exact Or.inl (by simpa [rangeSlice] using h)
  | cons v rest ih =>
    rcases hstep pre v l w h with ⟨hc, hP⟩ | ⟨hc, hQ⟩
    · rcases ih (pre ++ [v]) _ _ hP with hall | ⟨j, hj, hPj, hQj, heq⟩
      · left
        simpa [rangeSlice, hc] using hall
      · right
        refine ⟨j + 1, by simpa using hj, ?_, ?_, ?_⟩
        · simpa [rangeSlice, hc] using hPj
        · simpa [rangeSlice, hc] using hQj
        · simpa [rangeSlice, hc] using heq
    · right
      refine ⟨0, by simp, ?_, ?_, ?_⟩
      · simpa [rangeSlice] using h
      · simpa [rangeSlice, hc] using hQ
      · simp [rangeSlice, hc]

theorem calledOn_append {T R : Type} (a b : List (Event T R)) :
    calledOn (a ++ b) = calledOn a ++ calledOn b := by
  induction a with
  | nil => rfl
  | cons e rest ih => cases e <;> simp [calledOn, ih]

theorem StopsAtSource_of_step {T R S : Type} (k : Nat) (calls : List T → List T)
    (proj : S → Nat) (ok : S → Prop)
    (body : T → S → List (Event T R) → Bool × S × List (Event T R)) (init : S)
    (drive : List T → Nat × List (Event T R))
    (hdrive : ∀ ys, (drive ys).1 = proj (rangeSlice body ys init []).1 ∧
      (drive ys).2 = (rangeSlice body ys init []).2)
    (hproj : proj init = 0) (hok : ok init) (hcalls : calls [] = [])
    (hstep : ∀ pre v s log, Running k (proj s) log → calledOn log = calls pre → ok s →
      ((body v s log).1 = true ∧ Running k (proj (body v s log).2.1) (body v s log).2.2 ∧
        calledOn (body v s log).2.2 = calls (pre ++ [v]) ∧ ok (body v s log).2.1) ∨
      ((body v s log).1 = false ∧ calledOn (body v s log).2.2 = calls (pre ++ [v])))
    (hk : 1 ≤ k) (xs : List T) : StopsAtSource k calls drive xs := by
  intro hn
  have key := rangeSlice_by_position body
    (fun pre s log => Running k (proj s) log ∧ calledOn log = calls pre ∧ ok s)
    (fun pre _ log => calledOn log = calls pre)
    (fun pre v s log hP => by
      rcases hstep pre v s log hP.1 hP.2.1 hP.2.2 with ⟨h1, h2, h3, h4⟩ | ⟨h1, h2⟩
      · exact Or.inl ⟨h1, h2, h3, h4⟩
      · exact Or.inr ⟨h1, h2⟩)
    xs [] init [] ⟨by rw [hproj]; exact Running_start k hk, by simp [calledOn, hcalls], hok⟩
  rw [(hdrive xs).1] at hn
  rcases key with hall | ⟨j, hj, hPj, hQj, heq⟩
  · have := hall.1.2
    omega
  · refine ⟨j, hj, ?_, ?_, ?_⟩
    · rw [(hdrive _).1]
      exact hPj.1.2
    · apply Prod.ext
      · rw [(hdrive _).1, (hdrive _).1, heq]
      · rw [(hdrive _).2, (hdrive _).2, heq]
    · rw [(hdrive _).2]
      simpa using hQj

theorem Running_yielded {T R : Type} (k n : Nat) (log : List (Event T R)) (r : R)
    (h : Running k n log) (hlt : n + 1 < k) :
    Running k (n + 1) (log ++ [Event.yielded r]) :=
  ⟨by simp [List.filter_append, Event.isYielded, h.1], hlt⟩

theorem Filter_stopsAtSource {T : Type} (k : Nat) (hk : 1 ≤ k) (p : T → Bool) (xs : List T) :
    StopsAtSource k (fun pre => pre)
      (fun ys => driveStopAt k (Filter (SliceAllValues ys) (logged p))) xs := by
  refine StopsAtSource_of_step k _ (fun n => n) (fun _ => True) _ 0 _
    (fun ys => by
      simp only [driveStopAt, Filter]
      rw [SliceAllValues_enumerates ys Nat]
      exact ⟨rfl, rfl⟩)
    rfl trivial rfl ?_ hk xs
  intro pre v n log hrun hcalled _
  have hrun2 := Running_called k n log v hrun
  cases hp : p v
  · left
    simpa [logged, hp, calledOn_append, calledOn, hcalled] using hrun2
  · by_cases hlt : n + 1 < k
    · left
      have h5 := Running_yielded k n _ v hrun2 hlt
      simpa [logged, hp, stopAt, hlt, calledOn_append, calledOn, hcalled] using h5
    · right
      simp [logged, hp, stopAt, hlt, calledOn_append, calledOn, hcalled]

theorem Map_stopsAtSource {T R : Type} (k : Nat) (hk : 1 ≤ k) (f : T → R) (xs : List T) :
    StopsAtSource k (fun pre => pre)
      (fun ys => driveStopAt k (Map (SliceAllValues ys) (logged f))) xs := by
  refine StopsAtSource_of_step k _ (fun n => n) (fun _ => True) _ 0 _
    (fun ys => by
      simp only [driveStopAt, Map]
      rw [SliceAllValues_enumerates ys Nat]
      exact ⟨rfl, rfl⟩)
    rfl trivial rfl ?_ hk xs
  intro pre v n log hrun hcalled _
  have hrun2 := Running_called k n log v hrun
  by_cases hlt : n + 1 < k
  · left
    have h5 := Running_yielded k n _ (f v) hrun2 hlt
    simpa [logged, stopAt, hlt, calledOn_append, calledOn, hcalled] using h5
  · right
    simp [logged, stopAt, hlt, calledOn_append, calledOn, hcalled]

theorem Peek_stopsAtSource {T : Type} (k : Nat) (hk : 1 ≤ k) (xs : List T) :
    StopsAtSource k (fun pre => pre)
      (fun ys => driveStopAt k
        (Peek (SliceAllValues ys : Seq (List (Event T T)) T) loggedConsumer)) xs := by
  refine StopsAtSource_of_step k _ (fun n => n) (fun _ => True) _ 0 _
    (fun ys => by
      simp only [driveStopAt, Peek]
      rw [SliceAllValues_enumerates ys Nat]
      exact ⟨rfl, rfl⟩)
    rfl trivial rfl ?_ hk xs
  intro pre v n log hrun hcalled _
  have hrun2 := Running_called k n log v hrun
  by_cases hlt : n + 1 < k
  · left
    have h5 := Running_yielded k n _ v hrun2 hlt
    simpa [loggedConsumer, stopAt, hlt, calledOn_append, calledOn, hcalled] using h5
  · right
    simp [loggedConsumer, stopAt, hlt, calledOn_append, calledOn, hcalled]

theorem Until_stopsAtSource {T : Type} (k : Nat) (hk : 1 ≤ k) (p : T → Bool) (xs : List T) :
    StopsAtSource k (fun pre => pre)
      (fun ys => driveStopAt k (Until (SliceAllValues ys) (logged p))) xs := by
  refine StopsAtSource_of_step k _ (fun n => n) (fun _ => True) _ 0 _
    (fun ys => by
      simp only [driveStopAt, Until]
      rw [SliceAllValues_enumerates ys Nat]
      exact ⟨rfl, rfl⟩)
    rfl trivial rfl ?_ hk xs
  intro pre v n log hrun hcalled _
  have hrun2 := Running_called k n log v hrun
  cases hp : p v
  · by_cases hlt : n + 1 < k
    · left
      have h5 := Running_yielded k n _ v hrun2 hlt
      simpa [logged, hp, stopAt, hlt, calledOn_append, calledOn, hcalled] using h5
    · right
      simp [logged, hp, stopAt, hlt, calledOn_append, calledOn, hcalled]
  · right
    simp [logged, hp, calledOn_append, calledOn, hcalled]

theorem Distinct_stopsAtSource {T C : Type} [DecidableEq C] (k : Nat) (hk : 1 ≤ k)
    (key : T → C) (xs : List T) :
    StopsAtSource k (fun pre => pre)
      (fun ys => driveStopAt k (Distinct (SliceAllValues ys) (logged key))) xs := by
  refine StopsAtSource_of_step k _ (fun s : List C × Nat => s.2) (fun _ => True) _ ([], 0) _
    (fun ys => by
      simp only [driveStopAt, Distinct]
      rw [SliceAllValues_enumerates ys (List C × Nat)]
      exact ⟨rfl, rfl⟩)
    rfl trivial rfl ?_ hk xs
  intro pre v s log hrun hcalled _
  have hrun2 := Running_called k s.2 log v hrun
  by_cases hseen : key v ∈ s.1
  · left
    simpa [logged, hseen, calledOn_append, calledOn, hcalled] using hrun2
  · by_cases hlt : s.2 + 1 < k
    · left
      have h5 := Running_yielded k s.2 _ v hrun2 hlt
      simpa [logged, hseen, stopAt, hlt, calledOn_append, calledOn, hcalled] using h5
    · right
      simp [logged, hseen, stopAt, hlt, calledOn_append, calledOn, hcalled]

theorem Enumerate_stopsAtSource {T : Type} (k : Nat) (hk : 1 ≤ k) (xs : List T) :
    StopsAtSource k (fun _ => [])
      (fun ys => driveStopAt k
        (Enumerate (SliceAllValues ys) : Seq (List (Event T (Pair Int T))) (Pair Int T))) xs := by
  refine StopsAtSource_of_step k _ (fun s : Int × Nat => s.2) (fun _ => True) _ (0, 0) _
    (fun ys => by
      simp only [driveStopAt, Enumerate]
      rw [SliceAllValues_enumerates ys (Int × Nat)]
      exact ⟨rfl, rfl⟩)
    rfl trivial rfl ?_ hk xs
  intro pre v s log hrun hcalled _
  by_cases hlt : s.2 + 1 < k
  · left
    have h5 := Running_yielded k s.2 _ (PairOf s.1 v) hrun hlt
    simpa [stopAt, hlt, calledOn_append, calledOn, hcalled] using h5
  · right
    simp [stopAt, hlt, calledOn_append, calledOn, hcalled]

theorem stopAt_stopsCleanly_at {T R : Type} (k : Nat) (pre : List T) :
    StopsCleanly (fun n (log : List (Event T R)) => Running k n log ∧ calledOn log = pre)
      (fun _ log => calledOn log = pre) (stopAt k) := by
  intro r n log hg
  by_cases hlt : n + 1 < k
  · left
    have h5 := Running_yielded k n log r hg.1 hlt
    simpa [stopAt, hlt, calledOn_append, calledOn, hg.2] using h5
  · right
    simp [stopAt, hlt, calledOn_append, calledOn, hg.2]

theorem FlatMap_stopsAtSource {T R : Type} (k : Nat) (hk : 1 ≤ k) (g : T → List R)
    (xs : List T) :
    StopsAtSource k (fun pre => pre)
      (fun ys => driveStopAt k (FlatMap (SliceAllValues ys)
        (logged (fun v => (SliceAllValues (g v) : Seq (List (Event T R)) R))))) xs := by
  refine StopsAtSource_of_step k _ (fun s : Bool × Nat => s.2) (fun s => s.1 = false) _
    (false, 0) _
    (fun ys => by
      simp only [driveStopAt, FlatMap]
      rw [SliceAllValues_enumerates ys (Bool × Nat)]
      exact ⟨rfl, rfl⟩)
    rfl rfl rfl ?_ hk xs
  intro pre v s log hrun hcalled hok
  have hrun2 := Running_called k s.2 log v hrun
  have hc2 : calledOn (log ++ [Event.called v]) = pre ++ [v] := by
    simp [calledOn_append, calledOn, hcalled]
  have hs : s = (false, s.2) := by
    obtain ⟨b, n⟩ := s
    simp only at hok
    rw [hok]
  have hE := (SliceAllValues_enumerates (g v) :
    (SliceAllValues (g v) : Seq (List (Event T R)) R).Enumerates (g v))
    (Bool × Nat) (innerBody (stopAt k)) (false, s.2) (log ++ [Event.called v])
  have hin := inner_inv
    (fun n (log : List (Event T R)) => Running k n log ∧ calledOn log = pre ++ [v])
    (fun _ log => calledOn log = pre ++ [v]) (stopAt k) (stopAt_stopsCleanly_at k (pre ++ [v]))
    (g v) s.2 (log ++ [Event.called v]) ⟨hrun2, hc2⟩
  rw [hs]
  simp only [logged, hE]
  rcases hin with ⟨hflag, hG, hC⟩ | ⟨hflag, hC⟩
  · left
    simp only [hflag, Bool.false_eq_true, if_false]
    exact ⟨trivial, hG, hC, trivial⟩
  · right
    simp only [hflag, if_true]
    exact ⟨trivial, hC⟩

theorem rangeSlice_append_inner {W T L : Type} (yield : T → L → W → Bool × L × W)
    (xs ys : List T) (l : L) (w : W) :
    rangeSlice yield (xs ++ ys) l w =
      if (rangeSlice (innerBody yield) xs (false, l) w).1.1 then
        ((rangeSlice (innerBody yield) xs (false, l) w).1.2,
          (rangeSlice (innerBody yield) xs (false, l) w).2)
      else rangeSlice yield ys (rangeSlice (innerBody yield) xs (false, l) w).1.2
        (rangeSlice (innerBody yield) xs (false, l) w).2 := by
  induction xs generalizing l w with
  | nil => simp [rangeSlice]
  | cons v rest ih =>
    cases hy : (yield v l w).1
    · simp [rangeSlice, innerBody, hy]
    · simp only [List.cons_append, rangeSlice, innerBody, hy, Bool.not_true,
        Bool.false_eq_true, if_false, if_true]
      exact ih _ _

theorem Chain_enumerates {W T : Type} (xss : List (List T)) :
    (Chain (xss.map SliceAllValues) : Seq W T).Enumerates xss.flatten := by
  induction xss with
  | nil =>
    intro L yield l w
    simp [Chain, rangeSlice]
  | cons xs rest ih =>
    intro L yield l w
    have hE := (SliceAllValues_enumerates xs : (SliceAllValues xs : Seq W T).Enumerates xs)
      (Bool × L) (innerBody yield) (false, l) w
    simp only [List.map_cons, Chain, List.flatten_cons]
    rw [hE, rangeSlice_append_inner]
    cases hflag : (rangeSlice (innerBody yield) xs (false, l) w).1.1
    · simp only [Bool.false_eq_true, if_false]
      exact ih L yield _ _
    · simp only [if_true]

theorem rangeSlice_stopAt {T R : Type} (k : Nat) (ys : List R) (n : Nat)
    (log : List (Event T R)) (h : n < k) :
    rangeSlice (stopAt k) ys n log
      = (min k (n + ys.length), log ++ (ys.take (k - n)).map Event.yielded) := by
  induction ys generalizing n log with
  | nil =>
    have hmin : min k n = n := by omega
    simp [rangeSlice, hmin]
  | cons v rest ih =>
    have hk : k - n = (k - (n + 1)) + 1 := by omega
    by_cases hlt : n + 1 < k
    · have hlen : n + (rest.length + 1) = n + 1 + rest.length := by omega
      simp only [rangeSlice, stopAt, hlt, decide_True, if_true, List.length_cons]
      rw [ih (n + 1) _ hlt, hk, hlen]
      simp
    · have hmin : min k (n + (rest.length + 1)) = n + 1 := by omega
      have hz : k - (n + 1) = 0 := by omega
      simp only [rangeSlice, stopAt, hlt, decide_False, Bool.false_eq_true, if_false,
        List.length_cons]
      rw [hk, hz, hmin]
      simp

theorem driveStopAt_of_enumerates {T R : Type} (k : Nat) (S : Seq (List (Event T R)) R)
    (ys : List R) (hS : S.Enumerates ys) :
    driveStopAt k S = rangeSlice (stopAt k) ys 0 [] := by
  simp only [driveStopAt]
  exact hS Nat (stopAt k) 0 []

/-! ## Claims -/

/-- C1: for every finite sequence `S` (with elements `xs`) and every predicate
`P`, draining `Filter(S, P)` to a list gives exactly the sublist of the
elements of `S` that satisfy `P`, in their original order. -/
theorem Filter_drains_to_sublist {W T : Type} (S : Seq W T) (xs : List T)
    (hS : S.Enumerates xs) (P : T → Bool) (w : W) :
    ToSlice (Filter S (pure1 P)) w = (xs.filter P, w) :=
  ToSlice_of_enumerates _ _ (Filter_enumerates S xs hS P) w

/-- Witness for C1 on the slice `[1, 2, 3, 4]` and the predicate "is even". -/
theorem Filter_drains_to_sublist_witness :
    (SliceAllValues [1, 2, 3, 4] : Seq Unit Int).Enumerates [1, 2, 3, 4] ∧
    ToSlice (Filter (SliceAllValues [1, 2, 3, 4]) (pure1 (fun x : Int => x % 2 == 0))) ()
      = ([2, 4], ()) :=
  ⟨SliceAllValues_enumerates _,
   Filter_drains_to_sublist (SliceAllValues [1, 2, 3, 4]) [1, 2, 3, 4]
     (SliceAllValues_enumerates _) (fun x : Int => x % 2 == 0) ()⟩

/-- C2: for every finite sequence `S` (with elements `xs`), predicate `p` and
function `f`, `StreamOf(S).Filter(p).Map(f).Collect()` is the list obtained by
applying `f` to each element of `S` that satisfies `p`, in order; the fluent
methods are the `Filter` and `Map` combinators; and on `[1,2,3,4,5]` with
`p` = "is even" and `f` = "times ten" the result is `[20, 40]`. -/
theorem Stream_filter_map_collect {W T : Type} (S : Seq W T) (xs : List T)
    (hS : S.Enumerates xs) (p : T → Bool) (f : T → T) (w : W) :
    Seq.Collect (Seq.Map (Seq.Filter (StreamOf S) (pure1 p)) (pure1 f)) w
        = ((xs.filter p).map f, w) ∧
    Seq.Map (Seq.Filter (StreamOf S) (pure1 p)) (pure1 f) = Map (Filter S (pure1 p)) (pure1 f) ∧
    Seq.Collect (Seq.Map (Seq.Filter (StreamOf (SliceAllValues [1, 2, 3, 4, 5]))
        (pure1 (fun x : Int => x % 2 == 0))) (pure1 (fun x : Int => x * 10))) w
        = ([20, 40], w) := by
  refine ⟨?_, rfl, ?_⟩
  · exact slicesCollect_of_enumerates _ _ (Map_enumerates _ _ (Filter_enumerates S xs hS p) f) w
  · exact slicesCollect_of_enumerates _ _
      (Map_enumerates _ _ (Filter_enumerates _ _ (SliceAllValues_enumerates [1, 2, 3, 4, 5]) _) _) w

/-- Witness for C2 on the slice `[1, 2, 3]`, `p` = "is positive", `f` = negation. -/
theorem Stream_filter_map_collect_witness :
    (SliceAllValues [1, -2, 3] : Seq Unit Int).Enumerates [1, -2, 3] ∧
    Seq.Collect (Seq.Map (Seq.Filter (StreamOf (SliceAllValues [1, -2, 3]))
        (pure1 (fun x : Int => decide (0 < x)))) (pure1 (fun x : Int => -x))) ()
        = ([-1, -3], ()) :=
  ⟨SliceAllValues_enumerates _,
   (Stream_filter_map_collect (SliceAllValues [1, -2, 3]) [1, -2, 3]
     (SliceAllValues_enumerates _) (fun x : Int => decide (0 < x)) (fun x : Int => -x) ()).1⟩

/-- C3 fails as stated at the smallest `int`: `limit--` wraps `math.MinInt`
around to `math.MaxInt`, so `Limit(S, math.MinInt)` yields the elements of `S`
although `n <= 0`. -/
theorem Limit_minInt_counterexample :
    minInt ≤ 0 ∧
    ToSlice (Limit (SliceAllValues [7] : Seq Unit Int) minInt) () = ([7], ()) ∧
    Count (Limit (SliceAllValues [7] : Seq Unit Int) minInt) () = (1, ()) := by
  refine ⟨by decide, ?_, ?_⟩ <;> rfl

/-- C3, amended: for every finite sequence `S` (with elements `xs`) and every
`int` `n` other than the smallest one, a first drain of `Limit(S, n)` yields
exactly the first `min(n, Count(S))` elements of `S` in order when `n >= 0`
and nothing when `n <= 0`; hence `Count(Limit(S, n))` is `min(n, Count(S))`
for `n >= 0` and `0` for `n <= 0`. -/
theorem Limit_first_drain {W T : Type} (S : Seq W T) (xs : List T)
    (hS : S.Enumerates xs) (n : Int) (hmin : minInt < n) (hmax : n ≤ maxInt) (w : W) :
    ((xs.length : Int) ≤ maxInt → Count S w = ((xs.length : Int), w)) ∧
    (0 ≤ n → ToSlice (Limit S n) w = (xs.take (min n.toNat xs.length), w) ∧
      Count (Limit S n) w = (min n (xs.length : Int), w)) ∧
    (n ≤ 0 → ToSlice (Limit S n) w = ([], w) ∧ Count (Limit S n) w = (0, w)) := by
  have hE := Limit_enumerates S xs hS n hmin hmax
  have hT := ToSlice_of_enumerates _ _ hE w
  have hlen : (((xs.take n.toNat).length : Nat) : Int) ≤ maxInt := by
    have : (xs.take n.toNat).length ≤ n.toNat := by simp
    have hm := minInt_eq
    have hM := maxInt_eq
    omega
  have hC := Count_of_enumerates _ _ hE hlen w
  refine ⟨fun hl => Count_of_enumerates S xs hS hl w, fun h0 => ⟨?_, ?_⟩, fun h0 => ⟨?_, ?_⟩⟩
  · rw [hT]
    congr 1
    exact List.take_eq_take.mpr (by simp)
  · rw [hC]
    congr 1
    simp only [List.length_take, Nat.cast_min]
    omega
  · rw [hT]
    have : n.toNat = 0 := by omega
    simp [this]
  · rw [hC]
    have : n.toNat = 0 := by omega
    simp [this]

/-- Witness for C3 (amended) on the slice `[1, 2, 3]` and `n = 2`. -/
theorem Limit_first_drain_witness :
    (SliceAllValues [1, 2, 3] : Seq Unit Int).Enumerates [1, 2, 3] ∧ minInt < 2 ∧ 2 ≤ maxInt ∧
    ((0 : Int) ≤ 2 → ToSlice (Limit (SliceAllValues [1, 2, 3] : Seq Unit Int) 2) ()
        = ([1, 2], ()) ∧
      Count (Limit (SliceAllValues [1, 2, 3] : Seq Unit Int) 2) () = (2, ())) :=
  ⟨SliceAllValues_enumerates _, by decide, by decide,
   (Limit_first_drain (SliceAllValues [1, 2, 3]) [1, 2, 3]
     (SliceAllValues_enumerates _) 2 (by decide) (by decide) ()).2.1⟩

/-- C4 fails as stated in two places.  For a negative `n` every element is
yielded, so the count is `Count(S)` and not `max(0, Count(S) - n)`; and at the
smallest `int` the decrement `skip--` wraps around to `math.MaxInt`, so
`Skip(S, math.MinInt)` yields nothing although `n <= 0`. -/
theorem Skip_counterexample :
    Count (Skip (SliceAllValues [7] : Seq Unit Int) (-1)) () = (1, ()) ∧
    max (0 : Int) (1 - (-1)) = 2 ∧
    minInt ≤ 0 ∧
    ToSlice (Skip (SliceAllValues [7] : Seq Unit Int) minInt) () = ([], ()) := by
  refine ⟨?_, by decide, by decide, ?_⟩ <;> rfl

/-- C4, amended: for every finite sequence `S` (with elements `xs`, at most
`math.MaxInt` of them) and every `int` `n` with `n >= math.MinInt + Count(S)`,
a first drain of `Skip(S, n)` yields `S` with its first `n` elements removed
when `n >= 0` (nothing when `n >= Count(S)`) and yields every element of `S`
when `n <= 0`; hence `Count(Skip(S, n)) == max(0, Count(S) - max(n, 0))`. -/
theorem Skip_first_drain {W T : Type} (S : Seq W T) (xs : List T)
    (hS : S.Enumerates xs) (hlen : (xs.length : Int) ≤ maxInt)
    (n : Int) (hmin : minInt + xs.length ≤ n) (hmax : n ≤ maxInt) (w : W) :
    Count S w = ((xs.length : Int), w) ∧
    (0 ≤ n → ToSlice (Skip S n) w = (xs.drop n.toNat, w)) ∧
    ((xs.length : Int) ≤ n → ToSlice (Skip S n) w = ([], w)) ∧
    (n ≤ 0 → ToSlice (Skip S n) w = (xs, w)) ∧
    Count (Skip S n) w = (max 0 ((xs.length : Int) - max n 0), w) := by
  have hE := Skip_enumerates S xs hS n hmin hmax
  have hT := ToSlice_of_enumerates _ _ hE w
  have hl : (((xs.drop n.toNat).length : Nat) : Int) ≤ maxInt := by
    have : (xs.drop n.toNat).length ≤ xs.length := by simp
    omega
  have hC := Count_of_enumerates _ _ hE hl w
  refine ⟨Count_of_enumerates S xs hS hlen w, fun _ => hT, fun h0 => ?_, fun h0 => ?_, ?_⟩
  · rw [hT]
    have : xs.length ≤ n.toNat := by omega
    simp [List.drop_eq_nil_of_le this]
  · rw [hT]
    have : n.toNat = 0 := by omega
    simp [this]
  · rw [hC]
    congr 1
    simp only [List.length_drop, Nat.cast_sub]
    omega

/-- Witness for C4 (amended) on the slice `[1, 2, 3]` and `n = 2`. -/
theorem Skip_first_drain_witness :
    (SliceAllValues [1, 2, 3] : Seq Unit Int).Enumerates [1, 2, 3] ∧
    (([1, 2, 3] : List Int).length : Int) ≤ maxInt ∧
    minInt + (([1, 2, 3] : List Int).length : Int) ≤ 2 ∧ 2 ≤ maxInt ∧
    ((0 : Int) ≤ 2 → ToSlice (Skip (SliceAllValues [1, 2, 3] : Seq Unit Int) 2) ()
        = ([3], ())) :=
  ⟨SliceAllValues_enumerates _, by decide, by decide, by decide,
   (Skip_first_drain (SliceAllValues [1, 2, 3]) [1, 2, 3]
     (SliceAllValues_enumerates _) (by decide) 2 (by decide) (by decide) ()).2.1⟩

/-- C5: for every finite sequence `S` (with elements `xs`) and key function
`f`, draining `Distinct(S, f)` yields exactly those elements of `S` whose key
does not occur as the key of any earlier element of `S`, in the order of `S`
(so no key is yielded twice and every key of `S` is yielded); on
`[1, 2, 2, 3, 2]` with the identity key the result is `[1, 2, 3]`. -/
theorem Distinct_keeps_first_of_each_key {W T C : Type} [DecidableEq C] (S : Seq W T)
    (xs : List T) (hS : S.Enumerates xs) (f : T → C) (w : W) :
    ToSlice (Distinct S (pure1 f)) w = (firstOfEachKey f xs, w) ∧
    ((firstOfEachKey f xs).map f).Nodup ∧
    (∀ x ∈ xs, f x ∈ (firstOfEachKey f xs).map f) ∧
    ToSlice (Distinct (SliceAllValues [1, 2, 2, 3, 2]) (pure1 (fun x : Int => x))) w
      = ([1, 2, 3], w) := by
  have hkeys := firstOcc_keys f xs []
  rw [firstOcc_nil_eq] at hkeys
  refine ⟨?_, hkeys.2.1, fun x hx => (hkeys.2.2 x hx).resolve_left (by simp), ?_⟩
  · rw [ToSlice_of_enumerates _ _ (Distinct_enumerates S xs hS f) w, firstOcc_nil_eq]
  · rw [ToSlice_of_enumerates _ _
      (Distinct_enumerates _ _ (SliceAllValues_enumerates [1, 2, 2, 3, 2]) _) w]
    rfl

/-- Witness for C5 on the slice `[5, 15, 7, 25]` with the key "last digit". -/
theorem Distinct_keeps_first_of_each_key_witness :
    (SliceAllValues [5, 15, 7, 25] : Seq Unit Int).Enumerates [5, 15, 7, 25] ∧
    ToSlice (Distinct (SliceAllValues [5, 15, 7, 25]) (pure1 (fun x : Int => x % 10))) ()
      = ([5, 7], ()) :=
  ⟨SliceAllValues_enumerates _,
   (Distinct_keeps_first_of_each_key (SliceAllValues [5, 15, 7, 25]) [5, 15, 7, 25]
     (SliceAllValues_enumerates _) (fun x : Int => x % 10) ()).1⟩

/-- C6: `Distinct` is idempotent: for every finite sequence `S` and key
function `key`, draining `Distinct(Distinct(S, key), key)` yields the same
list of elements as draining `Distinct(S, key)`. -/
theorem Distinct_idempotent {W T C : Type} [DecidableEq C] (S : Seq W T)
    (xs : List T) (hS : S.Enumerates xs) (key : T → C) (w : W) :
    ToSlice (Distinct (Distinct S (pure1 key)) (pure1 key)) w
      = ToSlice (Distinct S (pure1 key)) w := by
  have h1 := Distinct_enumerates S xs hS key
  have h2 := Distinct_enumerates _ _ h1 key
  rw [ToSlice_of_enumerates _ _ h2 w, ToSlice_of_enumerates _ _ h1 w, firstOcc_idem]

/-- Witness for C6 on the slice `[1, 2, 2, 3, 2]` with the identity key. -/
theorem Distinct_idempotent_witness :
    (SliceAllValues [1, 2, 2, 3, 2] : Seq Unit Int).Enumerates [1, 2, 2, 3, 2] ∧
    ToSlice (Distinct (Distinct (SliceAllValues [1, 2, 2, 3, 2]) (pure1 (fun x : Int => x)))
        (pure1 (fun x : Int => x))) ()
      = ToSlice (Distinct (SliceAllValues [1, 2, 2, 3, 2]) (pure1 (fun x : Int => x))) () :=
  ⟨SliceAllValues_enumerates _,
   Distinct_idempotent (SliceAllValues [1, 2, 2, 3, 2]) [1, 2, 2, 3, 2]
     (SliceAllValues_enumerates _) (fun x : Int => x) ()⟩

/-- C7: for every finite sequence `S` (with elements `xs`) and every 3-way
comparator `cmp` that is a consistent total preorder, draining
`Sorted(S, cmp)` yields a permutation of the elements of `S` in which every
adjacent pair `(a, b)` satisfies `cmp(a, b) <= 0`; on `[3, 1, 2]` with the
ascending comparator the result is `[1, 2, 3]`.  This holds for every sort
that meets the contract of `slices.SortFunc`. -/
theorem Sorted_is_sorted_permutation {W T : Type} (sf : SortFunc T) (S : Seq W T)
    (xs : List T) (hS : S.Enumerates xs) (cmp : T → T → Int)
    (hc : ConsistentTotalPreorder cmp) (w : W) :
    (∃ ys, ToSlice (Sorted sf S cmp) w = (ys, w) ∧ ys.Perm xs ∧
      ys.Chain' (fun a b => cmp a b ≤ 0)) ∧
    (∀ sfInt : SortFunc Int,
      ToSlice (Sorted sfInt (SliceAllValues [3, 1, 2]) ascending) w = ([1, 2, 3], w)) := by
  refine ⟨⟨sf.sort cmp xs, ?_, sf.perm cmp xs, sf.chain_le hc xs⟩, fun sfInt => ?_⟩
  · exact ToSlice_of_enumerates _ _ (Sorted_enumerates sf S xs hS cmp) w
  · rw [ToSlice_of_enumerates _ _
      (Sorted_enumerates sfInt _ _ (SliceAllValues_enumerates [3, 1, 2]) ascending) w]
    congr 1
    have hperm : (sfInt.sort ascending [3, 1, 2]).Perm [1, 2, 3] :=
      (sfInt.perm ascending [3, 1, 2]).trans (by decide)
    have hle : (sfInt.sort ascending [3, 1, 2]).Chain' (fun a b : Int => a ≤ b) :=
      (sfInt.chain_le ascending_consistent [3, 1, 2]).imp (fun a b hab => by
        unfold ascending at hab
        split_ifs at hab <;> omega)
    exact List.eq_of_perm_of_sorted hperm (List.chain'_iff_pairwise.1 hle) (by decide)

/-- Witness for C7 on the slice `[2, 1]` with the ascending comparator and an
insertion sort. -/
theorem Sorted_is_sorted_permutation_witness :
    (SliceAllValues [2, 1] : Seq Unit Int).Enumerates [2, 1] ∧
    ConsistentTotalPreorder ascending ∧
    ∃ ys, ToSlice (Sorted (insertionSortFunc Int) (SliceAllValues [2, 1]) ascending) ()
        = (ys, ()) ∧ ys.Perm [2, 1] ∧ ys.Chain' (fun a b => ascending a b ≤ 0) :=
  ⟨SliceAllValues_enumerates _, ascending_consistent,
   (Sorted_is_sorted_permutation (insertionSortFunc Int) (SliceAllValues [2, 1]) [2, 1]
     (SliceAllValues_enumerates _) ascending ascending_consistent ()).1⟩

/-- C8 fails as stated: `IsSorted` asks for strictly ascending order
(`cmp(last, curr) >= 0` answers `false`), so it rejects the sorted sequence as
soon as two elements compare as equal.  On `[1, 1]` every sort returns
`[1, 1]` and `IsSorted` answers `false`. -/
theorem IsSorted_Sorted_counterexample :
    ConsistentTotalPreorder ascending ∧
    (IsSorted (Sorted (insertionSortFunc Int) (SliceAllValues [1, 1] : Seq Unit Int) ascending)
      (pure2 ascending) ()).1 = false ∧
    (∀ sf : SortFunc Int,
      (IsSorted (Sorted sf (SliceAllValues [1, 1] : Seq Unit Int) ascending)
        (pure2 ascending) ()).1 ≠ true) := by
  refine ⟨ascending_consistent, rfl, fun sf htrue => ?_⟩
  have hE := Sorted_enumerates sf _ _
    (SliceAllValues_enumerates ([1, 1] : List Int) : (SliceAllValues [1, 1] : Seq Unit Int).Enumerates _)
    ascending
  have hchain := (IsSorted_of_enumerates _ _ hE ascending ()).2.1 htrue
  have hne := (sf.chain_lt_iff ascending_consistent [1, 1]).1 hchain
  simp [ascending] at hne

/-- C8, amended: for every finite sequence `S` (with elements `xs`) and every
comparator `cmp` that is a consistent total preorder,
`IsSorted(Sorted(S, cmp), cmp)` returns `true` exactly when no two elements at
different positions of `S` compare as equal (`cmp(a, b) == 0`); it returns
`true` for `S = [3, 1, 2]` with the ascending comparator. -/
theorem IsSorted_Sorted_iff {W T : Type} [Inhabited T] (sf : SortFunc T) (S : Seq W T)
    (xs : List T) (hS : S.Enumerates xs) (cmp : T → T → Int)
    (hc : ConsistentTotalPreorder cmp) (w : W) :
    (IsSorted (Sorted sf S cmp) (pure2 cmp) w).2 = w ∧
    ((IsSorted (Sorted sf S cmp) (pure2 cmp) w).1 = true ↔
      xs.Pairwise (fun a b => cmp a b ≠ 0)) ∧
    (∀ sfInt : SortFunc Int,
      (IsSorted (Sorted sfInt (SliceAllValues [3, 1, 2]) ascending) (pure2 ascending) w).1
        = true) := by
  have hE := Sorted_enumerates sf S xs hS cmp
  have h := IsSorted_of_enumerates _ _ hE cmp w
  refine ⟨h.1, h.2.trans (sf.chain_lt_iff hc xs), fun sfInt => ?_⟩
  have hE2 := Sorted_enumerates sfInt _ _
    (SliceAllValues_enumerates ([3, 1, 2] : List Int) : (SliceAllValues [3, 1, 2] : Seq W Int).Enumerates _)
    ascending
  refine (IsSorted_of_enumerates _ _ hE2 ascending w).2.2 ?_
  exact (sfInt.chain_lt_iff ascending_consistent [3, 1, 2]).2 (by simp [ascending])

/-- Witness for C8 (amended) on the slice `[3, 1, 2]` with the ascending
comparator and an insertion sort. -/
theorem IsSorted_Sorted_iff_witness :
    (SliceAllValues [3, 1, 2] : Seq Unit Int).Enumerates [3, 1, 2] ∧
    ConsistentTotalPreorder ascending ∧
    ((IsSorted (Sorted (insertionSortFunc Int) (SliceAllValues [3, 1, 2] : Seq Unit Int)
        ascending) (pure2 ascending) ()).1 = true ↔
      ([3, 1, 2] : List Int).Pairwise (fun a b => ascending a b ≠ 0)) :=
  ⟨SliceAllValues_enumerates _, ascending_consistent,
   (IsSorted_Sorted_iff (insertionSortFunc Int) (SliceAllValues [3, 1, 2]) [3, 1, 2]
     (SliceAllValues_enumerates _) ascending ascending_consistent ()).2.1⟩

/-- C9: for every finite sequence `S` (with elements `xs`) and binary operator
`acc`, `Reduce(S, acc)` returns (zero value of `T`, `false`) when `S` is empty,
and otherwise `(r, true)` where `r` is the left-to-right fold of `acc` over the
remaining elements, seeded with the first element (`r` is that element when it
is the only one). -/
theorem Reduce_left_fold {W T : Type} [Inhabited T] (S : Seq W T) (xs : List T)
    (hS : S.Enumerates xs) (acc : T → T → T) (w : W) :
    (xs = [] → Reduce S (pure2 acc) w = ((default, false), w)) ∧
    (∀ x rest, xs = x :: rest → Reduce S (pure2 acc) w = ((rest.foldl acc x, true), w)) ∧
    (∀ x, xs = [x] → Reduce S (pure2 acc) w = ((x, true), w)) := by
  refine ⟨fun hx => ?_, fun x rest hx => ?_, fun x hx => ?_⟩
  · subst hx
    exact Reduce_nil S hS acc w
  · subst hx
    exact Reduce_cons S x rest hS acc w
  · subst hx
    exact Reduce_cons S x [] hS acc w

/-- Witness for C9 on the slice `[10, 3, 2]` and subtraction: `(10 - 3) - 2`. -/
theorem Reduce_left_fold_witness :
    (SliceAllValues [10, 3, 2] : Seq Unit Int).Enumerates [10, 3, 2] ∧
    Reduce (SliceAllValues [10, 3, 2] : Seq Unit Int) (pure2 (fun a b : Int => a - b)) ()
      = ((5, true), ()) :=
  ⟨SliceAllValues_enumerates _,
   (Reduce_left_fold (SliceAllValues [10, 3, 2]) [10, 3, 2] (SliceAllValues_enumerates _)
     (fun a b : Int => a - b) ()).2.1 10 [3, 2] rfl⟩

/-- C10, the early-stop contract: each of `Filter`, `Map`, `Peek`, `FlatMap`,
`Distinct`, `Until`, `Enumerate` and `Chain` is applied over slice sources,
every caller-supplied function records its invocations, and the downstream
callback records its invocations and answers `false` on the `k`-th one.  Then
the callback is invoked at most `k` times, and when it was invoked `k` times
that invocation is the last event on record: after it, neither the callback
nor any caller-supplied function (predicate, mapper, consumer, key function)
is invoked on any element.  By position in the source: when the callback was
invoked `k` times there is a position `j` in the source such that the run over
the first `j` elements invokes the callback fewer than `k` times (the element
at `j` produced the `k`-th yielded element), the run is the run over the first
`j + 1` elements alone, and the caller-supplied function was invoked exactly
on the elements at positions `0, ..., j`, in order, so on no element after
position `j` (`Enumerate` takes no function and invokes none).  `Chain` takes
no function either: its record is the callback invoked on the first `k`
elements of the concatenated slices, and nothing else. -/
theorem early_stop_contract {T R C : Type} [DecidableEq C] (k : Nat) (hk : 1 ≤ k)
    (xs : List T) (xss : List (List T)) (p : T → Bool) (f : T → R) (g : T → List R)
    (key : T → C) :
    EarlyStop k (driveStopAt k (Filter (SliceAllValues xs) (logged p))) ∧
    EarlyStop k (driveStopAt k (Map (SliceAllValues xs) (logged f))) ∧
    EarlyStop k (driveStopAt k (Peek (SliceAllValues xs) loggedConsumer)) ∧
    EarlyStop k (driveStopAt k
      (FlatMap (SliceAllValues xs) (logged (fun v => (SliceAllValues (g v) : Seq _ R))))) ∧
    EarlyStop k (driveStopAt k (Distinct (SliceAllValues xs) (logged key))) ∧
    EarlyStop k (driveStopAt k (Until (SliceAllValues xs) (logged p))) ∧
    EarlyStop k (driveStopAt k
      (Enumerate (SliceAllValues xs) : Seq (List (Event T (Pair Int T))) (Pair Int T))) ∧
    EarlyStop k (driveStopAt k
      (Chain (xss.map SliceAllValues) : Seq (List (Event T T)) T)) ∧
    StopsAtSource k (fun pre => pre)
      (fun ys => driveStopAt k (Filter (SliceAllValues ys) (logged p))) xs ∧
    StopsAtSource k (fun pre => pre)
      (fun ys => driveStopAt k (Map (SliceAllValues ys) (logged f))) xs ∧
    StopsAtSource k (fun pre => pre)
      (fun ys => driveStopAt k
        (Peek (SliceAllValues ys : Seq (List (Event T T)) T) loggedConsumer)) xs ∧
    StopsAtSource k (fun pre => pre)
      (fun ys => driveStopAt k (FlatMap (SliceAllValues ys)
        (logged (fun v => (SliceAllValues (g v) : Seq (List (Event T R)) R))))) xs ∧
    StopsAtSource k (fun pre => pre)
      (fun ys => driveStopAt k (Distinct (SliceAllValues ys) (logged key))) xs ∧
    StopsAtSource k (fun pre => pre)
      (fun ys => driveStopAt k (Until (SliceAllValues ys) (logged p))) xs ∧
    StopsAtSource k (fun _ => [])
      (fun ys => driveStopAt k
        (Enumerate (SliceAllValues ys) : Seq (List (Event T (Pair Int T))) (Pair Int T))) xs ∧
    driveStopAt k (Chain (xss.map SliceAllValues) : Seq (List (Event T T)) T)
      = (min k xss.flatten.length, (xss.flatten.take k).map Event.yielded) := by
  refine ⟨?_, ?_, ?_, ?_, ?_, ?_, ?_, ?_, Filter_stopsAtSource k hk p xs,
    Map_stopsAtSource k hk f xs, Peek_stopsAtSource k hk xs, FlatMap_stopsAtSource k hk g xs,
    Distinct_stopsAtSource k hk key xs, Until_stopsAtSource k hk p xs,
    Enumerate_stopsAtSource k hk xs, ?_⟩
  · exact EarlyStop_of k _ (Filter_inv (Running k) (Halted k) _
      (fun v n log hg => Running_called k n log v hg) _ (stopAt_stopsCleanly k) _ xs
      (SliceAllValues_enumerates xs) 0 [] (Running_start k hk))
  · exact EarlyStop_of k _ (Map_inv (Running k) (Halted k) _
      (fun v n log hg => Running_called k n log v hg) _ (stopAt_stopsCleanly k) _ xs
      (SliceAllValues_enumerates xs) 0 [] (Running_start k hk))
  · exact EarlyStop_of k _ (Peek_inv (Running k) (Halted k) _
      (fun v n log hg => Running_called k n log v hg) _ (stopAt_stopsCleanly k) _ xs
      (SliceAllValues_enumerates xs) 0 [] (Running_start k hk))
  · exact EarlyStop_of k _ (FlatMap_inv (Running k) (Halted k) _
      (fun v n log hg => Running_called k n log v hg)
      (fun v _ => ⟨g v, SliceAllValues_enumerates (g v)⟩) _ (stopAt_stopsCleanly k) _ xs
      (SliceAllValues_enumerates xs) 0 [] (Running_start k hk))
  · exact EarlyStop_of k _ (Distinct_inv (Running k) (Halted k) _
      (fun v n log hg => Running_called k n log v hg) _ (stopAt_stopsCleanly k) _ xs
      (SliceAllValues_enumerates xs) 0 [] (Running_start k hk))
  · exact EarlyStop_of k _ (Until_inv (Running k) (Halted k) _
      (fun v n log hg => Running_called k n log v hg) _ (stopAt_stopsCleanly k) _ xs
      (SliceAllValues_enumerates xs) 0 [] (Running_start k hk))
  · exact EarlyStop_of k _ (Enumerate_inv (Running k) (Halted k) _ (stopAt_stopsCleanly k) _ xs
      (SliceAllValues_enumerates xs) 0 [] (Running_start k hk))
  · exact EarlyStop_of k _ (Chain_inv (Running k) (Halted k) _ (stopAt_stopsCleanly k) xss
      0 [] (Running_start k hk))
  · rw [driveStopAt_of_enumerates k _ xss.flatten (Chain_enumerates xss),
      rangeSlice_stopAt k xss.flatten 0 [] (by omega)]
    simp

/-- Witness for C10 with `k = 2` on the slice `[1, 2, 3, 4, 5, 6]` and the
predicate "is even": the record of `Filter` ends with the second invocation
of the callback, on `4`; the predicate was invoked on the elements up to `4`,
and the elements `5` and `6` are never tested. -/
theorem early_stop_contract_witness :
    1 ≤ 2 ∧
    EarlyStop 2 (driveStopAt 2
      (Filter (SliceAllValues [1, 2, 3, 4, 5, 6]) (logged (fun x : Int => x % 2 == 0)))) ∧
    StopsAtSource 2 (fun pre => pre)
      (fun ys => driveStopAt 2
        (Filter (SliceAllValues ys) (logged (fun x : Int => x % 2 == 0))))
      [1, 2, 3, 4, 5, 6] ∧
    driveStopAt 2
      (Filter (SliceAllValues [1, 2, 3, 4, 5, 6]) (logged (fun x : Int => x % 2 == 0)))
      = (2, [Event.called 1, Event.called 2, Event.yielded 2,
             Event.called 3, Event.called 4, Event.yielded 4]) :=
  ⟨by decide,
   (early_stop_contract 2 (by decide) [1, 2, 3, 4, 5, 6] ([] : List (List Int))
     (fun x : Int => x % 2 == 0) (fun x : Int => x) (fun _ : Int => ([] : List Int))
     (fun x : Int => x)).1,
   (early_stop_contract 2 (by decide) [1, 2, 3, 4, 5, 6] ([] : List (List Int))
     (fun x : Int => x % 2 == 0) (fun x : Int => x) (fun _ : Int => ([] : List Int))
     (fun x : Int => x)).2.2.2.2.2.2.2.2.1,
   rfl⟩

/-- C11 fails as stated for a finite sequence that is not restartable:
`Limit(SliceAllValues([1, 2, 3]), 2)` is a finite sequence with the elements
`1, 2`, and the first drain of `Enumerate` over it yields `(0, 1), (1, 2)`, but
the second drain of the same `Enumerate` value yields nothing, because the
upstream `Limit` has used up its count. -/
theorem Enumerate_second_drain_counterexample :
    (Limit (SliceAllValues [1, 2, 3]) 2 : Seq Unit Int).Enumerates [1, 2] ∧
    driveTwice (Enumerate (Limit (SliceAllValues [1, 2, 3]) 2 : Seq Unit Int)) ()
      = ([PairOf 0 1, PairOf 1 2], [], ()) ∧
    (driveTwice (Enumerate (Limit (SliceAllValues [1, 2, 3]) 2 : Seq Unit Int)) ()).2.1
      ≠ withPositions [1, 2] :=
  ⟨Limit_enumerates _ _ (SliceAllValues_enumerates [1, 2, 3]) 2 (by decide) (by decide), rfl,
   by decide⟩

/-- C11, amended: for every finite sequence `S` with elements
`x0, ..., x(n-1)` (`n` an `int`), draining `Enumerate(S)` yields exactly the
pairs `(0, x0), (1, x1), ..., (n-1, x(n-1))` in that order; and when `S` is
restartable (every drive of `S` presents the same elements, as for a slice
source), draining the same `Enumerate(S)` value a second time yields the same
pairs again, starting from position 0. -/
theorem Enumerate_positions {W T : Type} (S : Seq W T) (xs : List T) (hS : S.Enumerates xs)
    (hlen : (xs.length : Int) ≤ maxInt) (w : W) :
    ToSlice (Enumerate S) w = (withPositions xs, w) ∧
    (S.Stable xs → driveTwice (Enumerate S) w = (withPositions xs, withPositions xs, w)) ∧
    (withPositions xs).map Pair.First
      = (List.range xs.length).map (fun i : Nat => (i : Int)) ∧
    (withPositions xs).map Pair.Second = xs :=
  ⟨ToSlice_of_enumerates _ _ (Enumerate_enumerates S xs hS hlen) w,
   fun hst => driveTwice_of_stable _ _ (Enumerate_stable S xs hst hlen) w,
   withPositions_first xs, withPositions_second xs⟩

/-- Witness for C11 (amended) on the slice `[7, 8, 9]`, which is restartable. -/
theorem Enumerate_positions_witness :
    (SliceAllValues [7, 8, 9] : Seq Unit Int).Enumerates [7, 8, 9] ∧
    (([7, 8, 9] : List Int).length : Int) ≤ maxInt ∧
    (SliceAllValues [7, 8, 9] : Seq Unit Int).Stable [7, 8, 9] ∧
    driveTwice (Enumerate (SliceAllValues [7, 8, 9] : Seq Unit Int)) ()
      = ([PairOf 0 7, PairOf 1 8, PairOf 2 9], [PairOf 0 7, PairOf 1 8, PairOf 2 9], ()) :=
  ⟨SliceAllValues_enumerates _, by decide, SliceAllValues_stable _,
   (Enumerate_positions (SliceAllValues [7, 8, 9]) [7, 8, 9] (SliceAllValues_enumerates _)
     (by decide) ()).2.1 (SliceAllValues_stable _)⟩

/-- C12: `Unzip` returns the first components and the second components of
the pairs, in order, so the two lists have equal length, the number of pairs;
and for lists `as` and `bs` of equal length, `Unzip` applied to the sequence of
the pairs `(as[i], bs[i])` in index order returns exactly `(as, bs)`. -/
theorem Unzip_round_trip {W A B : Type} (S : Seq W (Pair A B)) (ps : List (Pair A B))
    (hS : S.Enumerates ps) (w : W) :
    Unzip S w = ((ps.map Pair.First, ps.map Pair.Second), w) ∧
    (Unzip S w).1.1.length = ps.length ∧ (Unzip S w).1.2.length = ps.length ∧
    (∀ (as : List A) (bs : List B), as.length = bs.length →
      ps = List.zipWith PairOf as bs → Unzip S w = ((as, bs), w)) := by
  have h := Unzip_of_enumerates S ps hS w
  refine ⟨h, by rw [h]; simp, by rw [h]; simp, fun as bs hlen hps => ?_⟩
  rw [h, hps, zipWith_PairOf_first as bs hlen, zipWith_PairOf_second as bs hlen]

/-- Witness for C12 on the lists `[1, 2, 3]` and `[true, false, true]`. -/
theorem Unzip_round_trip_witness :
    (SliceAllValues (List.zipWith PairOf [1, 2, 3] [true, false, true]) :
      Seq Unit (Pair Int Bool)).Enumerates (List.zipWith PairOf [1, 2, 3] [true, false, true]) ∧
    Unzip (SliceAllValues (List.zipWith PairOf [1, 2, 3] [true, false, true]) :
      Seq Unit (Pair Int Bool)) () = (([1, 2, 3], [true, false, true]), ()) :=
  ⟨SliceAllValues_enumerates _,
   (Unzip_round_trip (SliceAllValues (List.zipWith PairOf [1, 2, 3] [true, false, true]))
     _ (SliceAllValues_enumerates _) ()).2.2.2 [1, 2, 3] [true, false, true] rfl rfl⟩

/-- C13: for every non-empty finite sequence `S` (with elements `xs`), every
`toString` function and every separator `sep`, `JoinBy(S, toString, sep)` is
`toString(x1) + sep + toString(x2) + ... + sep + toString(xn)`: the separator
stands between consecutive elements only, with no trailing separator;
`JoinBy(["a","b","c"], identity, ",")` is `"a,b,c"`. -/
theorem JoinBy_separates {W T B : Type} (S : Seq W T) (xs : List T) (hS : S.Enumerates xs)
    (hne : xs ≠ []) (toString : T → List B) (sep : List B) (w : W) :
    JoinBy S (pure1 toString) sep w = (some (joinWith sep (xs.map toString)), w) ∧
    JoinBy (SliceAllValues [['a'], ['b'], ['c']]) (pure1 (fun s : List Char => s)) [','] w
      = (some ['a', ',', 'b', ',', 'c'], w) := by
  refine ⟨?_, ?_⟩
  · cases xs with
    | nil => exact absurd rfl hne
    | cons x rest => exact JoinBy_cons S x rest hS toString sep w
  · exact JoinBy_cons _ _ _ (SliceAllValues_enumerates [['a'], ['b'], ['c']]) _ _ w

/-- Witness for C13 on the slice `[1, 2]`, strings of one byte and the
separator `"--"`. -/
theorem JoinBy_separates_witness :
    (SliceAllValues [1, 2] : Seq Unit Int).Enumerates [1, 2] ∧ ([1, 2] : List Int) ≠ [] ∧
    JoinBy (SliceAllValues [1, 2] : Seq Unit Int) (pure1 (fun x : Int => [x])) [0, 0] ()
      = (some [1, 0, 0, 2], ()) :=
  ⟨SliceAllValues_enumerates _, by decide,
   (JoinBy_separates (SliceAllValues [1, 2]) [1, 2] (SliceAllValues_enumerates _)
     (by decide) (fun x : Int => [x]) [0, 0] ()).1⟩

/-- C14, the code at the failing input: on the empty sequence with the
separator `","` the builder is empty, the bound `b.Len() - len(sep)` of the
slice expression is `-1`, and `JoinBy` panics instead of returning `""`.  With
the empty separator it returns `""`. -/
theorem JoinBy_empty_fails :
    JoinBy (SliceAllValues ([] : List (List Char)) : Seq Unit (List Char))
      (pure1 (fun s : List Char => s)) [','] () = (none, ()) ∧
    JoinBy (SliceAllValues ([] : List (List Char)) : Seq Unit (List Char))
      (pure1 (fun s : List Char => s)) [] () = (some [], ()) :=
  ⟨rfl, rfl⟩

/-- C15, the code at the failing input: the loop of `At` never increments `i`,
so `At([10, 20, 30], 1)` compares `0 == 1` on every element and returns
`(0, false)` instead of `(20, true)`; only index `0` is ever found. -/
theorem At_only_finds_index_zero :
    At (SliceAllValues [10, 20, 30] : Seq Unit Int) 1 () = ((0, false), ()) ∧
    At (SliceAllValues [10, 20, 30] : Seq Unit Int) 2 () = ((0, false), ()) ∧
    At (SliceAllValues [10, 20, 30] : Seq Unit Int) 0 () = ((10, true), ()) ∧
    (∀ (xs : List Int) (index : Int), index ≠ 0 →
      At (SliceAllValues xs : Seq Unit Int) index () = ((default, false), ())) :=
  ⟨rfl, rfl, rfl,
   fun xs index hne => At_nonzero_index _ xs (SliceAllValues_enumerates xs) index hne ()⟩

/-- C16, the code at the failing input: the loop `for i := n; n > 0; n--`
never changes `i` and stops before `n` reaches `0`, so the backward adapters
yield the last element `len - 1` times: `[3, 3]` for `[1, 2, 3]` instead of
`[3, 2, 1]`, and nothing for `[1]` instead of `[1]`. -/
theorem SliceBackward_repeats_last :
    ToSlice (SliceBackwardValues [1, 2, 3] : Seq Unit Int) () = ([3, 3], ()) ∧
    ToSlice (SliceBackward [1, 2, 3] : Seq Unit (Pair Int Int)) ()
      = ([PairOf 2 3, PairOf 2 3], ()) ∧
    ToSlice (SliceBackwardValues [1] : Seq Unit Int) () = ([], ()) ∧
    ToSlice (SliceBackwardValues ([] : List Int) : Seq Unit Int) () = ([], ()) ∧
    (∀ xs : List Int, ToSlice (SliceBackwardValues xs : Seq Unit Int) ()
      = (List.replicate (xs.length - 1) (xs.getD (xs.length - 1) default), ())) :=
  ⟨rfl, rfl, rfl, rfl,
   fun xs => ToSlice_of_enumerates _ _ (SliceBackwardValues_enumerates xs) ()⟩

/-- C17: for all `int`s `begin`, `end` and `step` with `step > 0`, when no
value that the loop variable takes overflows (the successor `v + step` of every
visited value `v <= end` fits in an `int`), draining `RangeAll(begin, end, step)`
terminates, after one iteration more than the number `n` of values, and yields
exactly the values `begin`, `begin + step`, `begin + 2*step`, ... that are
`<= end`, in increasing order (nothing when `begin > end`);
`RangeAll(1, 10, 2)` yields `[1, 3, 5, 7, 9]` and `Limit(RangeAll(1, 10, 2), 3)`
collects to `[1, 3, 5]`. -/
theorem RangeAll_yields_progression {W : Type} (begin endv step : Int)
    (hmin : minInt ≤ begin) (hstep : 0 < step)
    (hno : ∀ k : Nat, begin + k * step ≤ endv → begin + (k + 1) * step ≤ maxInt) (w : W) :
    (∃ n : Nat, (∀ k : Nat, k < n ↔ begin + k * step ≤ endv) ∧ (endv < begin → n = 0) ∧
      ((List.range n).map (fun k : Nat => begin + k * step)).Pairwise (fun a b => a < b) ∧
      ∀ fuel, n < fuel →
        (∀ (L : Type) (body : Int → L → W → Bool × L × W) (l : L) (w : W),
          rangeLoop endv step body fuel begin l w
            = some (rangeSlice body ((List.range n).map (fun k : Nat => begin + k * step)) l w)) ∧
        ToSlice (RangeAll fuel begin endv step) w
          = ((List.range n).map (fun k : Nat => begin + k * step), w)) ∧
    (∀ fuel, 5 < fuel →
      ToSlice (RangeAll fuel 1 10 2) w = ([1, 3, 5, 7, 9], w) ∧
      ToSlice (Limit (RangeAll fuel 1 10 2) 3) w = ([1, 3, 5], w)) := by
  refine ⟨?_, fun fuel hf => ⟨?_, ?_⟩⟩
  · obtain ⟨n, hn, _⟩ := @rangeLoop_spec W Unit endv step hstep
      (fun _ l w => (true, l, w)) (endv - begin + 1).toNat begin (le_refl _) hmin hno
    refine ⟨n, hn, fun hlt => ?_, ?_, fun fuel hf => ?_⟩
    · by_contra hne
      have := (hn 0).1 (by omega)
      simp at this
      omega
    · refine (List.pairwise_lt_range n).map _ (fun a b hab => ?_)
      have : (a : Int) < b := by exact_mod_cast hab
      nlinarith
    · have hrun : ∀ (L : Type) (body : Int → L → W → Bool × L × W) (l : L) (w : W),
          rangeLoop endv step body fuel begin l w
            = some (rangeSlice body
                ((List.range n).map (fun k : Nat => begin + k * step)) l w) := by
        intro L body l w
        obtain ⟨m, hm, hr⟩ := rangeLoop_spec endv step hstep body
          (endv - begin + 1).toNat begin (le_refl _) hmin hno
        have hmn : m = n := by
          apply Nat.le_antisymm
          · by_contra hlt
            have h1 := (hm n).1 (by omega)
            have h2 := (hn n).2 h1
            omega
          · by_contra hlt
            have h1 := (hn m).1 (by omega)
            have h2 := (hm m).2 h1
            omega
        subst hmn
        exact hr fuel hf l w
      exact ⟨hrun, ToSlice_of_enumerates _ _ (RangeAll_enumerates fuel begin endv step _ hrun) w⟩
  · exact ToSlice_of_enumerates _ _ (RangeAll_1_10_2 fuel hf) w
  · have h := Limit_enumerates _ _ (@RangeAll_1_10_2 W fuel hf) 3
      (by rw [minInt_eq]; decide) (by rw [maxInt_eq]; decide)
    exact ToSlice_of_enumerates _ _ h w

/-- Witness for C17 on `RangeAll(0, 7, 3)`, which yields `[0, 3, 6]` once the
fuel exceeds three iterations. -/
theorem RangeAll_yields_progression_witness :
    minInt ≤ 0 ∧ (0 : Int) < 3 ∧
    (∀ k : Nat, (0 : Int) + k * 3 ≤ 7 → (0 : Int) + (k + 1) * 3 ≤ maxInt) ∧
    (∃ n : Nat, (∀ k : Nat, k < n ↔ (0 : Int) + k * 3 ≤ 7) ∧ ((7 : Int) < 0 → n = 0) ∧
      ((List.range n).map (fun k : Nat => (0 : Int) + k * 3)).Pairwise (fun a b => a < b) ∧
      ∀ fuel, n < fuel →
        (∀ (L : Type) (body : Int → L → Unit → Bool × L × Unit) (l : L) (w : Unit),
          rangeLoop 7 3 body fuel 0 l w
            = some (rangeSlice body ((List.range n).map (fun k : Nat => (0 : Int) + k * 3)) l w)) ∧
        ToSlice (RangeAll fuel 0 7 3) ()
          = ((List.range n).map (fun k : Nat => (0 : Int) + k * 3), ())) ∧
    ToSlice (RangeAll 4 0 7 3 : Seq Unit Int) () = ([0, 3, 6], ()) :=
  ⟨by decide, by decide, fun k _ => by rw [maxInt_eq]; omega,
   (RangeAll_yields_progression 0 7 3 (by decide) (by decide)
     (fun k _ => by rw [maxInt_eq]; omega) ()).1,
   rfl⟩

/-- C18, the code at the failing input: `Limit` and `Skip` decrement the
parameter that the returned closure has captured, so the count carries over
from one drive to the next.  The second drive of `Limit([1, 2, 3], 2)` yields
nothing (the first yields `[1, 2]`), and the second drive of
`Skip([1, 2, 3], 1)` yields `[1, 2, 3]` (the first yields `[2, 3]`). -/
theorem Limit_Skip_second_drive :
    driveTwice (Limit (SliceAllValues [1, 2, 3] : Seq Unit Int) 2) () = ([1, 2], [], ()) ∧
    driveTwice (Skip (SliceAllValues [1, 2, 3] : Seq Unit Int) 1) ()
      = ([2, 3], [1, 2, 3], ()) ∧
    driveTwice (SliceAllValues [1, 2, 3] : Seq Unit Int) () = ([1, 2, 3], [1, 2, 3], ()) :=
  ⟨rfl, rfl, rfl⟩

/-- C19, the code at the failing input: in `Operator` the branch `idx == 0`
ends with `continue`, so `idx` stays `0`, `add` is never called and the result
is the last element: `Operator([1, 2, 3], +)` and `Seq.Sum` give `3`, while
`OperatorBy([1, 2, 3], +)` gives `6`. -/
theorem Operator_returns_last_element :
    Operator (SliceAllValues [1, 2, 3] : Seq Unit Int) (pure2 (fun a b => a + b)) ()
      = (3, ()) ∧
    Seq.Sum (SliceAllValues [1, 2, 3] : Seq Unit Int) (pure2 (fun a b => a + b)) ()
      = (3, ()) ∧
    OperatorBy (SliceAllValues [1, 2, 3] : Seq Unit Int) (pure2 (fun a b => a + b)) ()
      = (6, ()) ∧
    (∀ (xs : List Int) (add : BinaryOperator Unit Int),
      Operator (SliceAllValues xs : Seq Unit Int) add () = (xs.getLast?.getD default, ())) :=
  ⟨rfl, rfl, rfl,
   fun xs add => Operator_returns_last _ xs (SliceAllValues_enumerates xs) add ()⟩

/-- C20 fails as stated: `Limit` tests its counter when it receives an
element, so it pulls one element more than it yields.  Draining
`Limit(Peek([1, 2, 3], accept), 2)` yields `[1, 2]` and invokes `accept` three
times, the third time on the element `3`. -/
theorem Limit_Peek_counterexample :
    ToSlice (Limit (Peek (SliceAllValues [1, 2, 3] : Seq (List (Event Int Int)) Int)
        loggedConsumer) 2) []
      = ([1, 2], [Event.called 1, Event.called 2, Event.called 3]) ∧
    min (2 : Nat) ([1, 2, 3] : List Int).length = 2 :=
  ⟨rfl, rfl⟩

/-- C20, amended: for every slice `xs`, every `int` `n >= 0` and every
consumer `accept`, fully draining `Limit(Peek(SliceAllValues(xs), accept), n)`
yields the first `min(n, len(xs))` elements and invokes `accept` exactly
`min(n + 1, len(xs))` times, on the first `min(n + 1, len(xs))` elements of
`xs` in order and on no later element. -/
theorem Limit_pulls_one_more {W T : Type} (xs : List T) (n : Int) (h0 : 0 ≤ n)
    (h1 : n ≤ maxInt) (accept : Consumer W T) (w : W) :
    ToSlice (Limit (Peek (SliceAllValues xs) accept) n) w
      = (xs.take n.toNat, (xs.take (n.toNat + 1)).foldl (fun w v => accept v w) w) ∧
    ToSlice (Limit (Peek (SliceAllValues xs : Seq (List (Event T T)) T) loggedConsumer) n) []
      = (xs.take n.toNat, (xs.take (n.toNat + 1)).map Event.called) ∧
    ((xs.take (n.toNat + 1)).map (Event.called : T → Event T T)).length
      = min (n.toNat + 1) xs.length := by
  refine ⟨Limit_Peek_drain _ xs (SliceAllValues_enumerates xs) accept n h0 h1 w, ?_, by simp⟩
  rw [Limit_Peek_drain _ xs (SliceAllValues_enumerates xs) loggedConsumer n h0 h1 [],
    foldl_loggedConsumer]
  simp

/-- Witness for C20 (amended) on the slice `[1, 2, 3, 4]` and `n = 1`: one
element is yielded and `accept` is invoked on `1` and on `2`. -/
theorem Limit_pulls_one_more_witness :
    (0 : Int) ≤ 1 ∧ (1 : Int) ≤ maxInt ∧
    ToSlice (Limit (Peek (SliceAllValues [1, 2, 3, 4] : Seq (List (Event Int Int)) Int)
        loggedConsumer) 1) []
      = ([1], [Event.called 1, Event.called 2]) :=
  ⟨by decide, by decide,
   (Limit_pulls_one_more [1, 2, 3, 4] 1 (by decide) (by decide)
     (loggedConsumer : Consumer (List (Event Int Int)) Int) []).2.1⟩

end Iterext
